import Mathlib

/-!
Verification of the CortexAI worker grading pipeline.

This file gives a shallow embedding, in Lean, of the grading worker found in
`worker.py`, `theory_analyzer.py` and `programming_analyzer.py`, and proves
(or refutes) the testable properties stated for it.

Modelling conventions:
* text is a `List Char` (called `Str` below); Python `str` methods
  (`strip`, `splitlines`, `split`, `lower`, substring `in`) are re-implemented
  character by character.  `splitlines` is modelled on the `'\n'` separator
  (carriage returns are whitespace and are removed by the `rstrip` that the
  worker applies to every line it keeps);
* numeric scores are rationals (`ℚ`), standing for the Python floats;
* external services (the Gemini model, the Docker execution backend and the
  Firestore document store) are parameters: the Gemini grading call is an
  `Option` of its parsed JSON reply, the Docker backend is a flag plus an
  execution function, and the store is the list of previously persisted
  result documents in the order the query enumerates them (Firestore
  queries without an explicit order enumerate by ascending document id);
* the regular expressions appearing in the source
  (`-?\d+\.?\d*`, the marker regex of `split_question_into_parts`,
  `\n-{3,}\n`, `\n\s*\n`, `\b(def|print\(|import\b|:\s*$)`,
  `\bdef\s+\w+\s*\(`, `\breturn\b`, `\(\s*[a-zA-Z0-9_]+\s*[,)]`, `\(\s*\)`)
  are implemented as explicit scanners with the same greedy, leftmost,
  first-alternative semantics Python's `re` gives on them.
-/

/-- Text is modelled as a list of characters. -/
abbrev Str := List Char

/-- Python whitespace (`str.strip`, regex `\s`, ASCII range). -/
def isWS (c : Char) : Bool :=
  c = ' ' || c = '\t' || c = '\n' || c = '\r' || c = '\x0b' || c = '\x0c'

/-- Python's `str.lstrip()`. -/
def pyLstrip (s : Str) : Str := s.dropWhile isWS

/-- Python's `str.rstrip()`. -/
def pyRstrip (s : Str) : Str := (pyLstrip s.reverse).reverse

/-- Python's `str.strip()`. -/
def pyStrip (s : Str) : Str := pyRstrip (pyLstrip s)

/-- Python's ASCII lowercasing `str.lower()`. -/
def toLowerStr (s : Str) : Str := s.map Char.toLower

/-- Boolean list-prefix test. -/
def isPrefixB : Str → Str → Bool
  | [], _ => true
  | _ :: _, [] => false
  | a :: as, b :: bs => a == b && isPrefixB as bs

/-- Boolean contiguous-substring test (Python's `needle in hay`). -/
def isInfixB (needle : Str) : Str → Bool
  | [] => isPrefixB needle []
  | hay@(_ :: rest) => isPrefixB needle hay || isInfixB needle rest

/-- Maximal digit prefix of a string, together with the remainder. -/
def takeDigits (s : Str) : Str × Str := (s.takeWhile Char.isDigit, s.dropWhile Char.isDigit)

/-- One attempt of the regex `-?\d+\.?\d*` at the start of `s` (without the
optional sign): greedy digits, then an optional decimal point followed by
greedily matched digits.  Returns the matched token and the remainder. -/
def matchNumCore (s : Str) : Option (Str × Str) :=
  match takeDigits s with
  | ([], _) => none
  | (ds, rest) =>
    match rest with
    | '.' :: r2 =>
      match takeDigits r2 with
      | (ds2, r3) => some (ds ++ '.' :: ds2, r3)
    | _ => some (ds, rest)

/-- One attempt of the full regex `-?\d+\.?\d*` at the start of `s`. -/
def matchNumAt : Str → Option (Str × Str)
  | '-' :: rest => (matchNumCore rest).map (fun tr => ('-' :: tr.1, tr.2))
  | s => matchNumCore s

/-- Scanner for `re.findall(r'-?\d+\.?\d*', s)`: leftmost non-overlapping
matches, resuming after each match.  `fuel` bounds the number of steps; each
step consumes at least one character, so `s.length` fuel is enough. -/
def findNumsAux : Nat → Str → List Str
  | 0, _ => []
  | _ + 1, [] => []
  | fuel + 1, s@(_ :: rest) =>
    match matchNumAt s with
    | some (tok, r) => tok :: findNumsAux fuel r
    | none => findNumsAux fuel rest

/-- `re.findall(r'-?\d+\.?\d*', s)`. -/
def findNums (s : Str) : List Str := findNumsAux s.length s

/-- Stage 1 of `_compare_outputs`: strip both sides, exact equality. -/
def stageExact (actual expected : Str) : Bool :=
  decide (pyStrip actual = pyStrip expected)

/-- Stage 2 of `_compare_outputs`: the lists of numeric tokens extracted from
the stripped strings agree, and the expected side has at least one token. -/
def stageNumeric (actual expected : Str) : Bool :=
  decide (findNums (pyStrip expected) ≠ [] ∧
          findNums (pyStrip actual) = findNums (pyStrip expected))

/-- Stage 3 of `_compare_outputs`: `e.lower() in a.lower() or
a.lower() in e.lower()` on the stripped strings. -/
def stageContain (actual expected : Str) : Bool :=
  isInfixB (toLowerStr (pyStrip expected)) (toLowerStr (pyStrip actual)) ||
  isInfixB (toLowerStr (pyStrip actual)) (toLowerStr (pyStrip expected))

/-- `_compare_outputs` from `programming_analyzer.py`: the three stages in
order, short-circuiting on the first that accepts (each stage `return True`s
in the source; falling through all of them returns `False`). -/
def compare_outputs (actual expected : Str) : Bool :=
  stageExact actual expected || stageNumeric actual expected ||
  stageContain actual expected

/-! ## Result dictionaries -/

/-- The `{'score': ..., 'justification': ...}` dictionaries produced by the
analyzers and recorded per part by the worker (the optional debug `details`
entry is not modelled: no claim concerns it). -/
structure AnalyzerResult where
  score : ℚ
  justification : Str
deriving DecidableEq

/-! ## `theory_analyzer.analyze_theory_submission`

The Gemini model is external: `modelAvailable` is whether the module-level
client was constructed, and `modelResponse` is the parsed JSON object of the
grading reply (`none` when the call or the JSON parse raised).  The
`_fix_ocr_text_with_gemini` step only affects the prompt sent to the model,
so it is absorbed into the `modelResponse` parameter. -/

/-- `analyze_theory_submission(question, student_answer_ocr)`.  Note that the
parsed reply is returned as-is: the source performs no validation or clamping
of the model-provided score. -/
def analyze_theory_submission (modelAvailable : Bool) (_question studentAnswer : Str)
    (modelResponse : Option AnalyzerResult) : AnalyzerResult :=
  if modelAvailable = false ∨ studentAnswer = [] then
    ⟨0, "Missing model or student answer.".data⟩
  else
    match modelResponse with
    | some g => g
    | none => ⟨0, "AI grading failed.".data⟩

/-! ## Line splitting (`str.splitlines`) -/

/-- Split on `'\n'`, keeping empty segments (`splitNl s` is never empty). -/
def splitNl : Str → List Str
  | [] => [[]]
  | c :: r =>
    if c = '\n' then [] :: splitNl r
    else
      match splitNl r with
      | [] => [[c]]
      | h :: t => (c :: h) :: t

/-- Keep a line iff it has non-blank content, `rstrip`ped — the
`[l.rstrip() for l in question.splitlines() if l.strip()]` comprehension. -/
def keepLine (l : Str) : Option Str :=
  if pyStrip l = [] then none else some (pyRstrip l)

/-- The non-blank, right-stripped lines of a text. -/
def linesOf (q : Str) : List Str := (splitNl q).filterMap keepLine

/-! ## The enumeration-marker regex of `split_question_into_parts`

`^\s*(?:P?\s?\d+[:.\)]|Part\s*\d+[:.\)]|\([a-zA-Z0-9]\)|[a-zA-Z]\)|Q\d+[:.\)])`
with `re.IGNORECASE`.  Each alternative is tried in order at the position
after the maximal run of leading whitespace (backtracking into `\s*` cannot
help: no alternative starts with mandatory whitespace).  `matchMarker`
returns the remainder of the line after the matched marker, which is what
`re.sub(marker_regex, '', line)` leaves (the regex is anchored, so only one
occurrence can be replaced). -/

/-- Word characters `[a-zA-Z0-9_]`. -/
def isWordChar (c : Char) : Bool := c.isAlpha || c.isDigit || c = '_'

/-- The `[:.\)]` character class closing the numeric marker alternatives. -/
def isMarkPunct (c : Char) : Bool := c = ':' || c = '.' || c = ')'

/-- Drop one leading character satisfying `p`, if present (the regex pieces
`P?` and `\s?`). -/
def dropOpt (p : Char → Bool) (l : Str) : Str :=
  match l with
  | c :: r => if p c then r else l
  | [] => l

/-- The tail `\d+[:.\)]` shared by the numeric marker alternatives: one or
more digits, then one of `:`/`.`/`)`; returns the remainder. -/
def digitsThenPunct (x : Str) : Option Str :=
  match takeDigits x with
  | ([], _) => none
  | (_, c :: r) => if isMarkPunct c then some r else none
  | (_, []) => none

/-- Alternative `P?\s?\d+[:.\)]` (case-insensitive `P`).  If the optional `P`
is present but the rest fails, the variant without consuming `P` fails as
well (it would have to read a digit at `P`), so consuming a leading `P`/`p`
is faithful. -/
def markerAlt1 (l : Str) : Option Str :=
  digitsThenPunct (dropOpt isWS (dropOpt (fun c => c = 'P' || c = 'p') l))

/-- Alternative `Part\s*\d+[:.\)]` (case-insensitive). -/
def markerAlt2 (l : Str) : Option Str :=
  match l with
  | p :: a :: r :: t :: rest =>
    if p.toLower = 'p' && a.toLower = 'a' && r.toLower = 'r' && t.toLower = 't' then
      digitsThenPunct (rest.dropWhile isWS)
    else none
  | _ => none

/-- Alternative `\([a-zA-Z0-9]\)`. -/
def markerAlt3 (l : Str) : Option Str :=
  match l with
  | '(' :: c :: ')' :: r => if c.isAlpha || c.isDigit then some r else none
  | _ => none

/-- Alternative `[a-zA-Z]\)`. -/
def markerAlt4 (l : Str) : Option Str :=
  match l with
  | c :: ')' :: r => if c.isAlpha then some r else none
  | _ => none

/-- Alternative `Q\d+[:.\)]` (case-insensitive `Q`). -/
def markerAlt5 (l : Str) : Option Str :=
  match l with
  | c :: r => if c = 'Q' || c = 'q' then digitsThenPunct r else none
  | [] => none

/-- The marker alternatives, tried in the regex's order, on the
whitespace-stripped line. -/
def markerAlts (l : Str) : Option Str :=
  (markerAlt1 l).orElse fun _ =>
  (markerAlt2 l).orElse fun _ =>
  (markerAlt3 l).orElse fun _ =>
  (markerAlt4 l).orElse fun _ => markerAlt5 l

/-- Match of the full anchored marker regex against a line; `some rem` is the
line with the marker removed. -/
def matchMarker (l : Str) : Option Str := markerAlts (pyLstrip l)

/-! ## Building question parts from lines -/

/-- `" ".join(current)`. -/
def joinSpace : List Str → Str
  | [] => []
  | [x] => x
  | x :: r => x ++ ' ' :: joinSpace r

/-- `if current: parts.append(" ".join(current).strip())`. -/
def closeCurrent (parts : List Str) (current : List Str) : List Str :=
  if current = [] then parts else parts ++ [pyStrip (joinSpace current)]

/-- The accumulation loop of `split_question_into_parts`: a marker line
closes the current part and opens a new one seeded with the cleaned line;
any other line is appended to the current part. -/
def buildPartsAux : List Str → List Str → List Str → List Str
  | [], parts, current => closeCurrent parts current
  | line :: rest, parts, current =>
    match matchMarker line with
    | some rem => buildPartsAux rest (closeCurrent parts current) [pyStrip rem]
    | none => buildPartsAux rest parts (current ++ [line])

/-- The marker-based parts of a list of lines. -/
def buildParts (lines : List Str) : List Str := buildPartsAux lines [] []

/-- `worker.split_question_into_parts`. -/
def split_question_into_parts (question : Str) : List Str :=
  if pyStrip question = [] then [question]
  else
    let parts := buildParts (linesOf question)
    if parts.length ≤ 1 then [pyStrip question]
    else
      let f := parts.filter (fun p => !p.isEmpty)
      if f = [] then [pyStrip question] else f

/-! ## `programming_analyzer._split_submission_into_parts`

The scanners below implement `re.split` for the three kinds of separator
patterns the source tries, with Python's leftmost non-overlapping match
discipline.  Fuel is the length of the text; every step consumes at least
one character. -/

/-- `re.split(r'\nX{3,}\n', s)` for a separator character `X`: a newline,
a maximal run of at least three `X`, a newline.  `acc` is the current piece,
reversed. -/
def splitRunSepAux (c : Char) : Nat → Str → Str → List Str
  | 0, acc, rest => [acc.reverse ++ rest]
  | _ + 1, acc, [] => [acc.reverse]
  | fuel + 1, acc, d :: r =>
    if d = '\n' then
      match r.dropWhile (fun x => x == c) with
      | '\n' :: r2 =>
        if 3 ≤ (r.takeWhile (fun x => x == c)).length then
          acc.reverse :: splitRunSepAux c fuel [] r2
        else splitRunSepAux c fuel (d :: acc) r
      | _ => splitRunSepAux c fuel (d :: acc) r
    else splitRunSepAux c fuel (d :: acc) r

/-- `re.split` on a run separator (`\n-{3,}\n`, `\n#{3,}\n`, `\n={3,}\n`). -/
def splitRunSep (c : Char) (s : Str) : List Str := splitRunSepAux c s.length [] s

/-- `re.split(pat, s, flags=re.IGNORECASE)` for a literal pattern. -/
def ciLitSplitAux (pat : Str) : Nat → Str → Str → List Str
  | 0, acc, rest => [acc.reverse ++ rest]
  | _ + 1, acc, [] => [acc.reverse]
  | fuel + 1, acc, s@(d :: r) =>
    if isPrefixB (toLowerStr pat) (toLowerStr s) then
      acc.reverse :: ciLitSplitAux pat fuel [] (s.drop pat.length)
    else ciLitSplitAux pat fuel (d :: acc) r

/-- Case-insensitive literal `re.split`. -/
def ciLitSplit (pat s : Str) : List Str := ciLitSplitAux pat s.length [] s

/-- Split a whitespace run at its last newline: `some (u, v)` with
`run = u ++ '\n' :: v` and `'\n' ∉ v`, or `none` when the run has no
newline. -/
def lastNlSplit (run : Str) : Option (Str × Str) :=
  let v := run.reverse.takeWhile (fun x => !(x == '\n'))
  if v.length = run.length then none
  else some ((run.take (run.length - v.length - 1)), v.reverse)

/-- `re.split(r'\n\s*\n', s)`: at a newline, the greedy `\s*` backtracks to
the last newline of the maximal whitespace run that follows, so the match
consumes the first newline, the run up to and including its last newline,
and the remainder of the run starts the next piece. -/
def splitParaSepAux : Nat → Str → Str → List Str
  | 0, acc, rest => [acc.reverse ++ rest]
  | _ + 1, acc, [] => [acc.reverse]
  | fuel + 1, acc, d :: r =>
    if d = '\n' then
      match lastNlSplit (r.takeWhile isWS) with
      | some (_, v) => acc.reverse :: splitParaSepAux fuel [] (v ++ r.dropWhile isWS)
      | none => splitParaSepAux fuel (d :: acc) r
    else splitParaSepAux fuel (d :: acc) r

/-- `re.split(r'\n\s*\n', s)` (paragraph breaks). -/
def splitParaSep (s : Str) : List Str := splitParaSepAux s.length [] s

/-- Count non-overlapping occurrences of a (non-empty) pattern
(Python's `str.count`). -/
def countSubstr (pat : Str) : Nat → Str → Nat
  | 0, _ => 0
  | _ + 1, [] => if pat = [] then 0 else 0
  | fuel + 1, s@(_ :: r) =>
    if isPrefixB pat s then 1 + countSubstr pat fuel (s.drop pat.length)
    else countSubstr pat fuel r

/-- `str.count(pat)`. -/
def pyCount (pat s : Str) : Nat := countSubstr pat s.length s

/-- `[p.strip() for p in parts if p and p.strip()]`. -/
def stripFilter (parts : List Str) : List Str :=
  parts.filterMap (fun p => if pyStrip p = [] then none else some (pyStrip p))

/-- `_split_submission_into_parts(question, code_blob)`.  The `question`
argument is unused in the source, too.  The `def`/`class` and `main`
structural branches re-run the paragraph split, so they are expressed with
the same `blocks` list. -/
def split_submission_into_parts (_question code_blob : Str) : List Str :=
  if pyStrip code_blob = [] then []
  else
    let t1 := stripFilter (splitRunSep '-' code_blob)
    if 1 < t1.length then t1 else
    let t2 := stripFilter (splitRunSep '#' code_blob)
    if 1 < t2.length then t2 else
    let t3 := stripFilter (splitRunSep '=' code_blob)
    if 1 < t3.length then t3 else
    let t4 := stripFilter (ciLitSplit "--- Page Break ---".data code_blob)
    if 1 < t4.length then t4 else
    let t5 := stripFilter (ciLitSplit "FILE_BREAK".data code_blob)
    if 1 < t5.length then t5 else
    let t6 := stripFilter (ciLitSplit "--- FILE BREAK ---".data code_blob)
    if 1 < t6.length then t6 else
    let blocks := stripFilter (splitParaSep code_blob)
    if 1 < blocks.length then blocks else
    if (2 ≤ pyCount "\ndef ".data code_blob || 2 ≤ pyCount "\nclass ".data code_blob)
        && 1 < blocks.length then blocks else
    if 2 ≤ pyCount "int main".data (toLowerStr code_blob)
         + pyCount "main(".data (toLowerStr code_blob)
        && 1 < blocks.length then blocks
    else [pyStrip code_blob]

/-! ## Language detection and stdin detection -/

/-- The codomain of `_detect_language`. -/
inductive Lang
  | python
  | java
  | cpp
  | c
deriving DecidableEq

/-- Scanner for `re.search(r'\b(def|print\(|import\b|:\s*$)', lower)`:
`prev` is the previous character (for the word boundary).  The `:\s*$`
alternative needs a word character before the colon (the boundary sits
between a word character and the non-word `':'`) and, by the analysis of
`\s*$`, only whitespace after it. -/
def searchPySignalAux (prev : Option Char) : Str → Bool
  | [] => false
  | s@(ch :: r) =>
    let boundary := match prev with
                    | none => true
                    | some p => !isWordChar p
    if boundary && isPrefixB "def".data s then true
    else if boundary && isPrefixB "print(".data s then true
    else if boundary && isPrefixB "import".data s
            && (match s.drop 6 with
                | [] => true
                | d :: _ => !isWordChar d) then true
    else if (match prev with
             | some p => isWordChar p
             | none => false) && ch = ':' && r.all isWS then true
    else searchPySignalAux (some ch) r

/-- `re.search(r'\b(def|print\(|import\b|:\s*$)', s)` as a Boolean. -/
def searchPySignal (s : Str) : Bool := searchPySignalAux none s

/-- `_detect_language`.  Defaults to `python` when ambiguous. -/
def detect_language (code : Str) : Lang :=
  if code = [] then .python
  else
    let lower := toLowerStr code
    if searchPySignal lower then .python
    else if isInfixB "public static void main".data lower
            || isInfixB "system.out.println".data lower then .java
    else if isInfixB "#include".data lower
            && (isInfixB "std::".data lower || isInfixB "iostream".data lower
                || isInfixB "cin >>".data lower) then .cpp
    else if isInfixB "#include".data lower
            && (isInfixB "scanf(".data lower || isInfixB "printf(".data lower)
            && !isInfixB "std::".data lower then .c
    else .python

/-- `_has_stdin(code, language)`.  The trailing default-heuristic branch of
the source is unreachable: `language` always comes from `_detect_language`,
whose codomain is the four languages handled explicitly. -/
def has_stdin (code : Str) (language : Lang) : Bool :=
  match language with
  | .python => isInfixB "input(".data code || isInfixB "sys.stdin".data code
  | .java => isInfixB "scanner(".data (toLowerStr code)
             || isInfixB "system.in".data (toLowerStr code)
  | .cpp | .c =>
    ["scanf(", "cin >>", "gets(", "fgets(", "read("].any
      (fun t => isInfixB t.data code)

/-! ## OCR cleanup `_fix_code_simple` -/

/-- The per-character substitutions of `_fix_code_simple` (the source's
`re.sub` patterns are alternations of single characters, applied in
sequence; the patterns are disjoint, so a character-wise map is faithful). -/
def fixChar (c : Char) : Str :=
  if c = 'ﬁ' then "fi".data
  else if c = 'ﬂ' then "fl".data
  else if c = '“' || c = '”' then ['"']
  else if c = '‘' || c = '’' then [Char.ofNat 39]
  else if c = '—' || c = '–' then ['-']
  else if c = '‚' then [',']
  else [c]

/-- `_fix_code_simple`: substitutions, then drop characters outside printable
ASCII other than newline, tab and carriage return. -/
def fix_code_simple (code : Str) : Str :=
  ((code.map fixChar).flatten).filter
    (fun ch => (decide (31 < ch.toNat) && decide (ch.toNat < 127))
               || ch = '\n' || ch = '\t' || ch = '\r')

/-! ## Token sets (`token_set` in `worker.py`, `_token_set` in
`programming_analyzer.py` — identical code) -/

/-- `string.punctuation`: ASCII codes 33–47, 58–64, 91–96, 123–126. -/
def isPunct (c : Char) : Bool :=
  (decide (33 ≤ c.toNat) && decide (c.toNat ≤ 47))
  || (decide (58 ≤ c.toNat) && decide (c.toNat ≤ 64))
  || (decide (91 ≤ c.toNat) && decide (c.toNat ≤ 96))
  || (decide (123 ≤ c.toNat) && decide (c.toNat ≤ 126))

/-- Python's argumentless `str.split()`: split on whitespace runs, drop
empty words.  `cur` is the current word, reversed. -/
def wordsOfAux : Str → Str → List Str
  | [], cur => if cur = [] then [] else [cur.reverse]
  | c :: r, cur =>
    if isWS c then
      if cur = [] then wordsOfAux r [] else cur.reverse :: wordsOfAux r []
    else wordsOfAux r (c :: cur)

/-- `s.split()`. -/
def wordsOf (s : Str) : List Str := wordsOfAux s []

/-- The `_STOPWORDS` set (identical in both modules). -/
def stopwords : List Str :=
  ["the", "a", "an", "and", "or", "to", "of", "in", "on", "for", "with", "by",
   "from", "that", "this", "it", "is", "are", "as", "be", "your", "student",
   "write", "implement", "print"].map String.data

/-- `token_set(text)`: lowercase, punctuation to spaces, split, drop
stopwords, as a set. -/
def token_set (text : Str) : Finset Str :=
  if text = [] then ∅
  else
    ((wordsOf ((toLowerStr text).map (fun c => if isPunct c then ' ' else c))).filter
      (fun w => !stopwords.contains w)).toFinset

/-! ## Test-case generation `_generate_test_cases_simple` -/

/-- A generated `{ "input": ..., "expected_output": ... }` pair. -/
structure TestCase where
  input : Str
  expected_output : Str
deriving DecidableEq

/-- `_generate_test_cases_simple(question, language)` (`language` is unused
in the source as well). -/
def generate_test_cases_simple (question : Str) (_language : Lang) : List TestCase :=
  let q := toLowerStr question
  let cases :=
    if ["sum", "add", "plus", "addition", "total"].any
        (fun k => isInfixB k.data q) then
      [⟨"2 3".data, "5".data⟩, ⟨"0 5".data, "5".data⟩, ⟨"-1 5".data, "4".data⟩]
    else if ["multiply", "product", "times"].any (fun k => isInfixB k.data q) then
      [⟨"2 3".data, "6".data⟩, ⟨"0 5".data, "0".data⟩, ⟨"-1 4".data, "-4".data⟩]
    else if ["palindrome", "reverse", "string"].any (fun k => isInfixB k.data q) then
      [⟨"madam".data, "YES".data⟩, ⟨"hello".data, "NO".data⟩,
       ⟨"level".data, "YES".data⟩]
    else
      [⟨"2 3".data, []⟩, ⟨"5".data, []⟩]
  cases.take 5

/-! ## Conceptual scoring `_conceptual_score` -/

/-- Match of `def\s+\w+\s*\(` at the start of `s` (greedy quantifiers; no
backtracking can rescue a failed greedy attempt here because each quantifier
is followed by a character class disjoint from its own). -/
def matchDefSigAt (s : Str) : Bool :=
  if isPrefixB "def".data s then
    let r1 := s.drop 3
    if (r1.takeWhile isWS).isEmpty then false
    else
      let r2 := r1.dropWhile isWS
      if (r2.takeWhile isWordChar).isEmpty then false
      else
        match (r2.dropWhile isWordChar).dropWhile isWS with
        | '(' :: _ => true
        | _ => false
  else false

/-- `re.search(r'\bdef\s+\w+\s*\(', s)`. -/
def searchDefSigAux (prev : Option Char) : Str → Bool
  | [] => false
  | s@(ch :: r) =>
    let boundary := match prev with
                    | none => true
                    | some p => !isWordChar p
    if boundary && matchDefSigAt s then true
    else searchDefSigAux (some ch) r

/-- `re.search(r'\bdef\s+\w+\s*\(', s)` as a Boolean. -/
def searchDefSig (s : Str) : Bool := searchDefSigAux none s

/-- `re.search(r'\bW\b', s)` for a word `W`: boundary before and after. -/
def searchWordAux (w : Str) (prev : Option Char) : Str → Bool
  | [] => false
  | s@(ch :: r) =>
    let boundary := match prev with
                    | none => true
                    | some p => !isWordChar p
    if boundary && isPrefixB w s
        && (match s.drop w.length with
            | [] => true
            | d :: _ => !isWordChar d) then true
    else searchWordAux w (some ch) r

/-- `re.search(r'\bW\b', s)` as a Boolean. -/
def searchWord (w s : Str) : Bool := searchWordAux w none s

/-- Match of `\(\s*[a-zA-Z0-9_]+\s*[,)]` at the start of `s`. -/
def matchParamsAt (s : Str) : Bool :=
  match s with
  | '(' :: r =>
    let r2 := r.dropWhile isWS
    if (r2.takeWhile isWordChar).isEmpty then false
    else
      match (r2.dropWhile isWordChar).dropWhile isWS with
      | c :: _ => c = ',' || c = ')'
      | [] => false
  | _ => false

/-- `re.search(r'\(\s*[a-zA-Z0-9_]+\s*[,)]', s)`. -/
def searchParams : Str → Bool
  | [] => false
  | s@(_ :: r) => matchParamsAt s || searchParams r

/-- Match of `\(\s*\)` at the start of `s`. -/
def matchEmptyParensAt (s : Str) : Bool :=
  match s with
  | '(' :: r =>
    match r.dropWhile isWS with
    | ')' :: _ => true
    | _ => false
  | _ => false

/-- `re.search(r'\(\s*\)', s)`. -/
def searchEmptyParens : Str → Bool
  | [] => false
  | s@(_ :: r) => matchEmptyParensAt s || searchEmptyParens r

/-- Python `len(s.splitlines())` (modelled on `'\n'`): a trailing newline
does not open a final empty line. -/
def pySplitlinesLen (s : Str) : Nat :=
  if s = [] then 0
  else if s.getLast? = some '\n' then (splitNl s).length - 1
  else (splitNl s).length

/-- `_conceptual_score(question, code, language)`.  The `question` and
`language` arguments are unused in the source's body as well.  Note the
Python operator precedence in `has_params`:
`A or B == False and C` parses as `A or ((B == False) and C)`. -/
def conceptual_score (_question code : Str) (_language : Lang) : ℚ × Str :=
  let c := toLowerStr code
  let has_def := searchDefSig c || searchWord "function".data c
  let has_return := isInfixB "return ".data c || searchWord "return".data c
  let has_params := searchParams c
                    || (!searchEmptyParens c && isInfixB "(".data c)
  let step1 := if has_def || isInfixB "class ".data c
                  || isInfixB "int main".data c
                  || isInfixB "public static".data c then
                 ((2 : ℚ)/5, ["contains function/main".data])
               else (0, [])
  let step2 := if has_return then (step1.1 + 3/10, step1.2 ++ ["uses return".data])
               else step1
  let step3 := if has_params then (step2.1 + 1/5, step2.2 ++ ["contains parameters".data])
               else step2
  let score0 := if 3 < pySplitlinesLen c then step3.1 + 1/10 else step3.1
  let score := max 0 (min 1 score0)
  let reasons := step3.2
  (score,
   "Conceptual check — ".data ++
     (if reasons = [] then "no clear functions/returns/params found".data
      else List.intercalate "; ".data reasons) ++ ".".data)

/-! ## `_run_code_in_docker`

The Docker backend is external: `dockerAvailable` models the module-level
`_DOCKER_AVAILABLE` flag, and `runCase lang code input` is the captured
combined output of one container run (`none` when the run raised, which the
source records as an `error` detail and moves on from). -/

/-- One recorded per-test-case detail row. -/
structure RunDetail where
  input : Str
  expected : Str
  actual : Option Str
  status : Str
deriving DecidableEq

/-- `_run_code_in_docker(code, language, test_cases)`, returning
`(passed, total, details)`. -/
def run_code_in_docker (dockerAvailable : Bool) (runCase : Lang → Str → Str → Option Str)
    (code : Str) (language : Lang) (test_cases : List TestCase) :
    Nat × Nat × List RunDetail :=
  let total := test_cases.length
  if total = 0 then (0, 0, [])
  else if !dockerAvailable then
    (0, total,
     test_cases.map (fun tc => ⟨tc.input, tc.expected_output, none,
                                "docker_unavailable".data⟩))
  else
    test_cases.foldl
      (fun acc tc =>
        let expected := pyStrip tc.expected_output
        match runCase language code tc.input with
        | some out =>
          let ok := if expected ≠ [] then compare_outputs out expected else true
          (acc.1 + (if ok then 1 else 0), acc.2.1,
           acc.2.2 ++ [⟨tc.input, expected, some (pyStrip out),
                        (if ok then "pass" else "fail").data⟩])
        | none =>
          (acc.1, acc.2.1, acc.2.2 ++ [⟨tc.input, expected, none, "error".data⟩]))
      (0, total, [])

/-! ## `analyze_programming_submission`

The test-case generator is a parameter `gen` so that the behaviour on an
empty generation can be stated; the source instantiates it with
`_generate_test_cases_simple`. -/

/-- Steps 1–3 of `analyze_programming_submission`: split the blob into
candidates, pick the best by token overlap with the question (preferring
longer candidates by a small bonus), and clean it with `_fix_code_simple`. -/
def selectedFixedCode (question ocr_code : Str) : Str :=
  let candidates := split_submission_into_parts question ocr_code
  let qTokens := token_set question
  let best := candidates.enum.foldl
    (fun best ic =>
      let tok := token_set ic.2
      let base : ℚ :=
        if qTokens ≠ ∅ then ((tok ∩ qTokens).card : ℚ) / max 1 (qTokens.card : ℚ)
        else min 1 (((wordsOf ic.2).length : ℚ) / 200)
      let s := base + min (((wordsOf ic.2).length : ℚ) / 1000) (1/50)
      if s > best.2 then (ic.1, s) else best)
    (0, (-1 : ℚ))
  fix_code_simple (candidates.getD best.1 [])

/-- The exact condition of the `if not test_cases:` fallback inside
`analyze_programming_submission` (reached only for stdin-reading programs). -/
def usedEmptyTestFallback (gen : Str → Lang → List TestCase)
    (question ocr_code : Str) : Bool :=
  if pyStrip ocr_code = [] then false
  else
    let fixed := selectedFixedCode question ocr_code
    let lang := detect_language fixed
    has_stdin fixed lang && (gen question lang).isEmpty

/-- `analyze_programming_submission(question, ocr_code)` with the external
pieces as parameters. -/
def analyze_programming_submission (gen : Str → Lang → List TestCase)
    (dockerAvailable : Bool) (runCase : Lang → Str → Str → Option Str)
    (question ocr_code : Str) : AnalyzerResult :=
  if pyStrip ocr_code = [] then
    ⟨0, "No code extracted from submission.".data⟩
  else
    let fixed := selectedFixedCode question ocr_code
    let lang := detect_language fixed
    if has_stdin fixed lang then
      let test_cases := gen question lang
      if test_cases = [] then
        let cj := conceptual_score question fixed lang
        ⟨cj.1 * (1/2), "No test cases could be generated. ".data ++ cj.2⟩
      else
        let ptd := run_code_in_docker dockerAvailable runCase fixed lang test_cases
        if ptd.2.1 = 0 then ⟨0, "No runnable test cases.".data⟩
        else if !dockerAvailable then
          ⟨0, "Docker not available to run tests; could not execute test cases.".data⟩
        else
          ⟨(ptd.1 : ℚ) / (ptd.2.1 : ℚ),
           "Passed ".data ++ (toString ptd.1).data ++ "/".data
             ++ (toString ptd.2.1).data ++ " test cases.".data⟩
    else
      let cj := conceptual_score question fixed lang
      ⟨cj.1, cj.2⟩

/-! ## The worker's attachment→part mapping (`worker.process_task`,
lines 271–291) -/

/-- `|tokens(fragment) ∩ tokens(part)| / max(1, |tokens(part)|)`. -/
def overlapScore (pt qt : Finset Str) : ℚ :=
  ((pt ∩ qt).card : ℚ) / max 1 (qt.card : ℚ)

/-- The inner argmax loop: `best_score = -1.0; best_j = 0`, strict
improvement. -/
def bestJAux (pt : Finset Str) : List (Nat × Finset Str) → Nat × ℚ → Nat × ℚ
  | [], best => best
  | (j, qt) :: rest, best =>
    bestJAux pt rest (if overlapScore pt qt > best.2 then (j, overlapScore pt qt) else best)

/-- Index of the best-overlapping question part for one attachment. -/
def bestJ (pt : Finset Str) (qts : List (Finset Str)) : Nat :=
  (bestJAux pt qts.enum (0, -1)).1

/-- The worker's attachment-index → part-index mapping: positional when the
counts agree, otherwise each attachment independently goes to its
best-overlapping part (nothing prevents two attachments from choosing the
same part). -/
def buildMapping (ocr_texts question_parts : List Str) : List (Nat × Nat) :=
  if ocr_texts.length = question_parts.length then
    (List.range question_parts.length).map (fun i => (i, i))
  else
    let qts := question_parts.map token_set
    ocr_texts.enum.map (fun it => (it.1, bestJ (token_set it.2) qts))

/-! ## Per-part result collection and aggregation (`worker.process_task`,
lines 294–341) -/

/-- Association-list lookup with `Nat` keys (the `part_results` dict). -/
def alookup {α : Type} : List (Nat × α) → Nat → Option α
  | [], _ => none
  | e :: r, j => if e.1 = j then some e.2 else alookup r j

/-- One `part_results`/`part_sources` entry: part index, result, source
attachment index (`none` for the "no submission" fill). -/
abbrev PartEntry := Nat × AnalyzerResult × Option Nat

/-- `if part_index not in part_results or score > ...: keep the new one`
(a dict insert keeps position on overwrite, append on new key). -/
def updateBest (pr : List PartEntry) (attIdx partIdx : Nat) (r : AnalyzerResult) :
    List PartEntry :=
  match alookup pr partIdx with
  | none => pr ++ [(partIdx, r, some attIdx)]
  | some old =>
    if r.score > old.1.score then
      pr.map (fun e => if e.1 = partIdx then (partIdx, r, some attIdx) else e)
    else pr

/-- The loop over `mapping.items()` calling the analyzer and keeping the
best result per part.  `results i` is the result dict computed for
attachment `i` (empty-OCR fallback, analyzer call, or analyzer-error
fallback — the collection logic is the same for all of them). -/
def selectPartResults (results : Nat → AnalyzerResult) :
    List (Nat × Nat) → List PartEntry → List PartEntry
  | [], pr => pr
  | (i, j) :: rest, pr => selectPartResults results rest (updateBest pr i j (results i))

/-- The explicit zero entry for a part that received no mapped result. -/
def noSubResult (j : Nat) : AnalyzerResult :=
  ⟨0, "Part ".data ++ (toString (j + 1)).data ++ ": No submission found.".data⟩

/-- `for j in range(num_parts): if j not in part_results: add zero entry`. -/
def fillParts (numParts : Nat) (pr : List PartEntry) : List PartEntry :=
  match numParts with
  | 0 => pr
  | n + 1 =>
    let acc := fillParts n pr
    if (alookup acc n).isSome then acc else acc ++ [(n, noSubResult n, none)]

/-- `float(part_results[j].get('score', 0.0))` (the key is always present
after the fill; `0` is the dict default). -/
def partScore (pr : List PartEntry) (j : Nat) : ℚ :=
  match alookup pr j with
  | some e => e.1.score
  | none => 0

/-- `final_score = sum(part_scores)/len(part_scores) if part_scores else 0`. -/
def finalScoreOf (numParts : Nat) (pr : List PartEntry) : ℚ :=
  let scores := (List.range numParts).map (partScore pr)
  if scores = [] then 0 else scores.sum / (scores.length : ℚ)

/-- The `P{j+1}` / `P{j+1} (from {name})` justification header of a part. -/
def headerOf (attachment_names : List Str) (j : Nat) (src : Option Nat) : Str :=
  let base := "P".data ++ (toString (j + 1)).data
  match src with
  | some i =>
    match attachment_names.get? i with
    | some nm => if nm = [] then base else base ++ " (from ".data ++ nm ++ ")".data
    | none => base
  | none => base

/-- `" | ".join(per_part_justifications)`. -/
def finalJustOf (numParts : Nat) (attachment_names : List Str)
    (pr : List PartEntry) : Str :=
  List.intercalate " | ".data
    ((List.range numParts).map (fun j =>
      match alookup pr j with
      | some e => headerOf attachment_names j e.2 ++ ": ".data ++ e.1.justification
      | none => headerOf attachment_names j none ++ ": ".data))

/-! ## Plagiarism check and overall worker outcome (`worker.process_task`,
lines 231–261 and 343–356)

The Firestore `results` collection is modelled as the list of previously
persisted documents in the order the query enumerates them; the source's
`.limit(1)` query therefore returns the *first* stored document whose
`assignment_id` matches and whose `file_hashes` array contains the hash. -/

/-- A previously persisted result document (the fields the plagiarism query
touches). -/
structure StoredDoc where
  student_id : Str
  assignment_id : Str
  file_hashes : List Str
deriving DecidableEq

/-- What the worker records about a detected match. -/
structure PlagInfo where
  matched_student : Str
  matched_hash : Str
deriving DecidableEq

/-- The query predicate:
`where('assignment_id','==',aid).where('file_hashes','array_contains',h)`. -/
def plagMatch (assignment_id h : Str) (d : StoredDoc) : Bool :=
  decide (d.assignment_id = assignment_id) && d.file_hashes.contains h

/-- The plagiarism loop: for each submitted hash, fetch the first matching
stored document; flag only when its `student_id` is non-empty and differs
from the submitting student, otherwise move on to the next hash. -/
def plagCheck (store : List StoredDoc) (student_id assignment_id : Str) :
    List Str → Option PlagInfo
  | [] => none
  | h :: rest =>
    match store.find? (plagMatch assignment_id h) with
    | some d =>
      if d.student_id ≠ [] ∧ d.student_id ≠ student_id then
        some ⟨d.student_id, h⟩
      else plagCheck store student_id assignment_id rest
    | none => plagCheck store student_id assignment_id rest

/-- The result document the worker writes (the fields the claims concern). -/
structure ResultDoc where
  accuracy_score : ℚ
  justification : Str
  is_plagiarized : Bool
deriving DecidableEq

/-- The fixed document written when plagiarism is detected. -/
def plagResultDoc : ResultDoc :=
  ⟨0, "Plagiarism detected (exact file match).".data, true⟩

/-- `process_task` after download and OCR: the plagiarism short-circuit,
then split, map, analyze, fill, and aggregate.  `results i` is the per-
attachment result dict (see `selectPartResults`). -/
def workerOutcome (store : List StoredDoc) (student_id assignment_id : Str)
    (file_hashes : List Str) (question : Str) (ocr_texts : List Str)
    (attachment_names : List Str) (results : Nat → AnalyzerResult) : ResultDoc :=
  match plagCheck store student_id assignment_id file_hashes with
  | some _ => plagResultDoc
  | none =>
    let qp := split_question_into_parts question
    let n := qp.length
    let mapping := buildMapping ocr_texts qp
    let pr := fillParts n (selectPartResults results mapping [])
    ⟨finalScoreOf n pr, finalJustOf n attachment_names pr, false⟩

/-! ## Auxiliary definitions used by the proofs -/

/-- Left-strip the first element of a list of lines (how stripping a text
changes its kept-lines list). -/
def lstripHead : List Str → List Str
  | [] => []
  | h :: t => pyLstrip h :: t

/-- How `splitNl` acts on an append: the last segment of the first part
joins the first segment of the second. -/
def glueSplits : List Str → List Str → List Str
  | [], l2 => l2
  | [a], l2 =>
    match l2 with
    | [] => [a]
    | b :: t => (a ++ b) :: t
  | a :: rest, l2 => a :: glueSplits rest l2

/-- The worker's `part_results` dictionary after the explicit-zero fill:
split the question, map the attachments, keep the best result per part,
fill the missing parts. -/
def workerPartResults (question : Str) (ocr_texts : List Str)
    (results : Nat → AnalyzerResult) : List PartEntry :=
  fillParts (split_question_into_parts question).length
    (selectPartResults results
      (buildMapping ocr_texts (split_question_into_parts question)) [])

/-! # Theorems -/

section Lemmas

/-- The empty string is a substring of everything. -/
theorem isInfixB_nil_left (s : Str) : isInfixB [] s = true := by
  cases s <;> simp [isInfixB, isPrefixB]

/-- The built-in test-case generator never returns an empty list. -/
theorem generate_test_cases_simple_ne_nil (q : Str) (lang : Lang) :
    generate_test_cases_simple q lang ≠ [] := by
  unfold generate_test_cases_simple
  dsimp only
  repeat' split
  all_goals decide

/-- The built-in test-case generator returns at most five cases. -/
theorem generate_test_cases_simple_le_five (q : Str) (lang : Lang) :
    (generate_test_cases_simple q lang).length ≤ 5 := by
  unfold generate_test_cases_simple
  dsimp only
  repeat' split
  all_goals decide

end Lemmas

/-- C6: for all output strings, when the (stripped) expected string contains
at least one numeric token of the regex `-?\d+\.?\d*`, the comparator's
numeric stage accepts exactly when the ordered list of numeric tokens
extracted from the actual output equals, as a list of strings, the list
extracted from the expected output; in particular `"Sum: 5"` against `"5"`
passes the stage (and the comparator accepts), while `"5.0"` against `"5"`
does not pass the stage. -/
theorem c6_numeric_stage_token_sequences :
    (∀ actual expected : Str, findNums (pyStrip expected) ≠ [] →
      (stageNumeric actual expected = true ↔
        findNums (pyStrip actual) = findNums (pyStrip expected)))
    ∧ stageNumeric "Sum: 5".data "5".data = true
    ∧ compare_outputs "Sum: 5".data "5".data = true
    ∧ stageNumeric "5.0".data "5".data = false := by
  refine ⟨?_, by decide, by decide, by decide⟩
  intro a e h
  simp [stageNumeric, h]

/-- Witness for C6 at a concrete input. -/
theorem c6_witness :
    findNums (pyStrip "5".data) ≠ [] ∧
    (stageNumeric "Sum: 5".data "5".data = true ↔
      findNums (pyStrip "Sum: 5".data) = findNums (pyStrip "5".data)) :=
  ⟨by decide, c6_numeric_stage_token_sequences.1 "Sum: 5".data "5".data (by decide)⟩

/-- C7 counterexample: with actual `"b"` and expected `"abc"`, neither the
exact stage nor the numeric stage matches, the normalized expected is
non-blank and is *not* a substring of the normalized actual — so the claim
says the comparator rejects — yet the comparator accepts, because the
normalized actual is a strict substring of the normalized expected. -/
theorem c7_counterexample :
    stageExact "b".data "abc".data = false
    ∧ stageNumeric "b".data "abc".data = false
    ∧ pyStrip "abc".data ≠ []
    ∧ isInfixB (toLowerStr (pyStrip "abc".data)) (toLowerStr (pyStrip "b".data)) = false
    ∧ compare_outputs "b".data "abc".data = true := by
  refine ⟨by decide, by decide, by decide, by decide, by decide⟩

/-- C7 (amended): when neither the exact stage nor the numeric stage
matches, the comparator accepts iff the normalized (stripped, lowercased)
expected is a substring of the normalized actual **or** the normalized
actual is a substring of the normalized expected — containment in either
direction; and a blank expected is always accepted. -/
theorem c7_amended_containment_both_ways :
    (∀ actual expected : Str,
      stageExact actual expected = false → stageNumeric actual expected = false →
      (compare_outputs actual expected = true ↔
        (isInfixB (toLowerStr (pyStrip expected)) (toLowerStr (pyStrip actual)) = true
         ∨ isInfixB (toLowerStr (pyStrip actual)) (toLowerStr (pyStrip expected)) = true)))
    ∧ (∀ actual expected : Str, pyStrip expected = [] →
        compare_outputs actual expected = true) := by
  constructor
  · intro a e h1 h2
    simp [compare_outputs, h1, h2, stageContain]
  · intro a e h
    simp [compare_outputs, stageContain, h, toLowerStr, isInfixB_nil_left]

/-- Witness for C7's amended claim at a concrete input. -/
theorem c7_witness :
    compare_outputs "xyz".data "y".data = true ↔
      (isInfixB (toLowerStr (pyStrip "y".data)) (toLowerStr (pyStrip "xyz".data)) = true
       ∨ isInfixB (toLowerStr (pyStrip "xyz".data)) (toLowerStr (pyStrip "y".data)) = true) :=
  c7_amended_containment_both_ways.1 "xyz".data "y".data (by decide) (by decide)

/-- C1 (code bug): the theory analyzer returns the model-provided score
without any validation or clamping, contradicting both the invariant
"scores are always clamped to [0,1]" and its own docstring
("'score' (0.0-1.0)").  With a model reply of `{"score": 1.5, ...}` for a
non-empty student answer, the per-part score recorded is `3/2 ∉ [0,1]`, and
the worker's final score over one part is `3/2` as well. -/
theorem c1_theory_score_not_clamped :
    (analyze_theory_submission true "Explain photosynthesis.".data
        "Plants absorb light.".data (some ⟨3/2, "ok".data⟩)).score = 3/2
    ∧ ¬ (analyze_theory_submission true "Explain photosynthesis.".data
        "Plants absorb light.".data (some ⟨3/2, "ok".data⟩)).score ≤ 1
    ∧ finalScoreOf 1 (fillParts 1 (selectPartResults
        (fun _ => analyze_theory_submission true "Explain photosynthesis.".data
          "Plants absorb light.".data (some ⟨3/2, "ok".data⟩)) [(0, 0)] [])) = 3/2 := by
  have hres : analyze_theory_submission true "Explain photosynthesis.".data
      "Plants absorb light.".data (some ⟨3/2, "ok".data⟩) = ⟨3/2, "ok".data⟩ := by
    unfold analyze_theory_submission
    rw [if_neg]
    simp only [Bool.true_eq_false, false_or]
    decide
  refine ⟨by rw [hres], by rw [hres]; norm_num, ?_⟩
  rw [hres]
  have h1 : selectPartResults (fun _ => (⟨3/2, "ok".data⟩ : AnalyzerResult)) [(0, 0)] []
      = [(0, ⟨3/2, "ok".data⟩, some 0)] := rfl
  have h2 : fillParts 1 [(0, (⟨3/2, "ok".data⟩ : AnalyzerResult), some 0)]
      = [(0, ⟨3/2, "ok".data⟩, some 0)] := rfl
  rw [h1, h2]
  simp [finalScoreOf, partScore, alookup, List.range_succ]

/-! ## C2: the attachment→part mapping -/

/-- The first components of `enumFrom` are a number range. -/
theorem enumFrom_map_fst_range {α : Type} (n : Nat) (l : List α) :
    (List.enumFrom n l).map Prod.fst = List.range' n l.length := by
  induction l generalizing n with
  | nil => rfl
  | cons a t ih => simp [List.enumFrom, List.range', ih]

/-- The first components of `enum` are `range`. -/
theorem enum_map_fst_range {α : Type} (l : List α) :
    l.enum.map Prod.fst = List.range l.length := by
  rw [show l.enum = List.enumFrom 0 l from rfl, enumFrom_map_fst_range,
    List.range_eq_range']

/-- With a single question part, the argmax loop returns index 0 whatever
the score comparison does. -/
theorem bestJ_singleton (pt qt : Finset Str) : bestJ pt [qt] = 0 := by
  by_cases h : overlapScore pt qt > (-1 : ℚ) <;>
    simp [bestJ, bestJAux, List.enum, List.enumFrom, h]

/-- C2 counterexample: two fragments, one question part.  The counts differ,
so the token-overlap path runs, and both fragments are assigned to part
index 0 — the mapping's part indices are not pairwise distinct, refuting
"no two fragments are assigned to the same question part index".  (The
worker then keeps only the higher-scoring of the two, cf. `updateBest`.) -/
theorem c2_counterexample :
    buildMapping ["alpha".data, "alpha".data] ["alpha".data] = [(0, 0), (1, 0)]
    ∧ ¬ ((buildMapping ["alpha".data, "alpha".data] ["alpha".data]).map Prod.snd).Nodup := by
  have hb : buildMapping ["alpha".data, "alpha".data] ["alpha".data] = [(0, 0), (1, 0)] := by
    unfold buildMapping
    rw [if_neg (by decide)]
    dsimp only
    simp [List.enum, List.enumFrom, bestJ_singleton]
  exact ⟨hb, by rw [hb]; decide⟩

/-- C2 (amended): the mapping is a *function* on fragment indices — its keys
are exactly the fragment indices `0..len-1`, each occurring once, so no
fragment is ever assigned to two question parts; and when the number of
fragments equals the number of parts the fast path maps by position, which
is injective in both directions.  When the counts differ, two fragments may
be assigned to the same part index (see the counterexample); the worker then
keeps one result per part. -/
theorem c2_amended_mapping_is_functional :
    ∀ (ocr_texts question_parts : List Str),
      ((buildMapping ocr_texts question_parts).map Prod.fst = List.range ocr_texts.length)
      ∧ (ocr_texts.length = question_parts.length →
          buildMapping ocr_texts question_parts
            = (List.range ocr_texts.length).map (fun i => (i, i))) := by
  intro o q
  constructor
  · by_cases h : o.length = q.length
    · unfold buildMapping
      rw [if_pos h]
      simp [List.map_map, h, Function.comp_def]
    · unfold buildMapping
      rw [if_neg h]
      dsimp only
      rw [List.map_map]
      exact enum_map_fst_range o
  · intro h
    unfold buildMapping
    rw [if_pos h, h]

/-- Witness for C2's amended claim at concrete equal-count input. -/
theorem c2_witness :
    buildMapping ["x".data] ["y".data] = (List.range 1).map (fun i => (i, i)) :=
  (c2_amended_mapping_is_functional ["x".data] ["y".data]).2 (by decide)

/-! ## C5, C9, C10: the programming analyzer's dynamic-test path -/

/-- When the submission splits into a single candidate, the best-candidate
selection picks it whatever its overlap score is. -/
theorem selectedFixedCode_singleton (question ocr c : Str)
    (h : split_submission_into_parts question ocr = [c]) :
    selectedFixedCode question ocr = fix_code_simple c := by
  unfold selectedFixedCode
  rw [h]
  dsimp only [List.enum, List.enumFrom, List.foldl]
  split <;> split <;> rfl

/-- With the Docker backend unavailable, the runner scores every test case
as failed and records a `docker_unavailable` detail per case. -/
theorem run_code_in_docker_unavailable (r : Lang → Str → Str → Option Str)
    (code : Str) (lang : Lang) (tcs : List TestCase) (h : tcs ≠ []) :
    run_code_in_docker false r code lang tcs
      = (0, tcs.length,
         tcs.map (fun tc => ⟨tc.input, tc.expected_output, none,
                             "docker_unavailable".data⟩)) := by
  unfold run_code_in_docker
  rw [if_neg (by simpa [List.length_eq_zero] using h)]
  simp

/-- C10: the built-in test-case generator always returns a non-empty list of
at most five cases (the topic-less fallback still returns two generic
cases), so the `if not test_cases:` fallback branch of
`analyze_programming_submission` can never be taken when the analyzer runs
with its own generator. -/
theorem c10_builtin_generator_nonempty :
    (∀ (q : Str) (lang : Lang),
      generate_test_cases_simple q lang ≠ []
      ∧ (generate_test_cases_simple q lang).length ≤ 5)
    ∧ (∀ (question ocr_code : Str),
        usedEmptyTestFallback generate_test_cases_simple question ocr_code = false) := by
  refine ⟨fun q lang => ⟨generate_test_cases_simple_ne_nil q lang,
    generate_test_cases_simple_le_five q lang⟩, ?_⟩
  intro q ocr
  unfold usedEmptyTestFallback
  split
  · rfl
  · dsimp only
    cases hgen : generate_test_cases_simple q
        (detect_language (selectedFixedCode q ocr)) with
    | nil => exact absurd hgen (generate_test_cases_simple_ne_nil _ _)
    | cons a t => simp [hgen]

/-- C5 counterexample: feed the analyzer a stdin-reading submission and a
test-case generation that returns the empty list.  The part is scored
`1/10` — half of its conceptual score — not `0`, and its justification is
`"No test cases could be generated. Conceptual check — contains
parameters."`, not `"no test cases"`. -/
theorem c5_counterexample :
    (analyze_programming_submission (fun _ _ => []) false (fun _ _ _ => none)
        [] "x = input()\nprint(x)".data).score = 1/10
    ∧ (analyze_programming_submission (fun _ _ => []) false (fun _ _ _ => none)
        [] "x = input()\nprint(x)".data).score ≠ 0
    ∧ (analyze_programming_submission (fun _ _ => []) false (fun _ _ _ => none)
        [] "x = input()\nprint(x)".data).justification
      = "No test cases could be generated. Conceptual check — contains parameters.".data
    ∧ (analyze_programming_submission (fun _ _ => []) false (fun _ _ _ => none)
        [] "x = input()\nprint(x)".data).justification ≠ "no test cases".data := by
  have hsel : selectedFixedCode [] "x = input()\nprint(x)".data
      = "x = input()\nprint(x)".data := by
    rw [selectedFixedCode_singleton [] "x = input()\nprint(x)".data
      "x = input()\nprint(x)".data (by decide)]
    decide
  have hconc : conceptual_score [] "x = input()\nprint(x)".data Lang.python
      = (1/5, "Conceptual check — contains parameters.".data) := by
    unfold conceptual_score
    have e1 : searchDefSig (toLowerStr "x = input()\nprint(x)".data) = false := by decide
    have e2 : searchWord "function".data (toLowerStr "x = input()\nprint(x)".data) = false := by
      decide
    have e3 : isInfixB "return ".data (toLowerStr "x = input()\nprint(x)".data) = false := by
      decide
    have e4 : searchWord "return".data (toLowerStr "x = input()\nprint(x)".data) = false := by
      decide
    have e5 : searchParams (toLowerStr "x = input()\nprint(x)".data) = true := by decide
    have e6 : isInfixB "class ".data (toLowerStr "x = input()\nprint(x)".data) = false := by
      decide
    have e7 : isInfixB "int main".data (toLowerStr "x = input()\nprint(x)".data) = false := by
      decide
    have e8 : isInfixB "public static".data (toLowerStr "x = input()\nprint(x)".data)
        = false := by decide
    have e9 : pySplitlinesLen (toLowerStr "x = input()\nprint(x)".data) = 2 := by decide
    dsimp only
    rw [e1, e2, e3, e4, e5, e6, e7, e8, e9]
    norm_num [min_def, max_def]
    decide
  have hres : analyze_programming_submission (fun _ _ => []) false (fun _ _ _ => none)
      [] "x = input()\nprint(x)".data
      = ⟨(1/5 : ℚ) * (1/2),
         "No test cases could be generated. ".data
           ++ "Conceptual check — contains parameters.".data⟩ := by
    unfold analyze_programming_submission
    rw [if_neg (by decide)]
    dsimp only
    rw [hsel]
    have hlang : detect_language "x = input()\nprint(x)".data = Lang.python := by decide
    rw [hlang]
    have hstdin : has_stdin "x = input()\nprint(x)".data Lang.python = true := by decide
    rw [hstdin]
    rw [hconc]
    simp
  refine ⟨by rw [hres]; norm_num, by rw [hres]; dsimp only; norm_num,
    by rw [hres]; decide, by rw [hres]; decide⟩

/-- C5 (amended): for a part whose program reads standard input, if
test-case generation returns an empty list, the part is scored at *half its
conceptual score* (which need not be 0) with the justification
`"No test cases could be generated. "` followed by the conceptual
justification — not score 0 with justification `"no test cases"`.  Other
parts are unaffected (the analyzer is called once per attachment). -/
theorem c5_amended_empty_generation_half_conceptual :
    ∀ (gen : Str → Lang → List TestCase) (dockerAvailable : Bool)
      (runCase : Lang → Str → Str → Option Str) (question ocr_code : Str),
      pyStrip ocr_code ≠ [] →
      has_stdin (selectedFixedCode question ocr_code)
        (detect_language (selectedFixedCode question ocr_code)) = true →
      gen question (detect_language (selectedFixedCode question ocr_code)) = [] →
      analyze_programming_submission gen dockerAvailable runCase question ocr_code
        = ⟨(conceptual_score question (selectedFixedCode question ocr_code)
              (detect_language (selectedFixedCode question ocr_code))).1 * (1/2),
           "No test cases could be generated. ".data ++
             (conceptual_score question (selectedFixedCode question ocr_code)
               (detect_language (selectedFixedCode question ocr_code))).2⟩ := by
  intro gen d r q ocr h1 h2 h3
  unfold analyze_programming_submission
  rw [if_neg h1]
  dsimp only
  simp [h2, h3]

/-- Witness for C5's amended claim at a concrete input. -/
theorem c5_witness :
    analyze_programming_submission (fun _ _ => []) true (fun _ _ _ => none)
      "sum".data "input()".data
      = ⟨(conceptual_score "sum".data (selectedFixedCode "sum".data "input()".data)
            (detect_language (selectedFixedCode "sum".data "input()".data))).1 * (1/2),
         "No test cases could be generated. ".data ++
           (conceptual_score "sum".data (selectedFixedCode "sum".data "input()".data)
             (detect_language (selectedFixedCode "sum".data "input()".data))).2⟩ := by
  have hsel : selectedFixedCode "sum".data "input()".data = "input()".data := by
    rw [selectedFixedCode_singleton "sum".data "input()".data "input()".data (by decide)]
    decide
  exact c5_amended_empty_generation_half_conceptual (fun _ _ => []) true
    (fun _ _ _ => none) "sum".data "input()".data (by decide)
    (by rw [hsel]; decide) rfl

/-- C9: when the Docker execution backend is unavailable, every part whose
program reads standard input is scored exactly 0 with the explanatory
justification from the source, and the analyzer still returns a well-formed
result (it is a total function into result dictionaries, so the grading
request continues instead of aborting). -/
theorem c9_docker_unavailable_scores_zero :
    ∀ (runCase : Lang → Str → Str → Option Str) (question ocr_code : Str),
      pyStrip ocr_code ≠ [] →
      has_stdin (selectedFixedCode question ocr_code)
        (detect_language (selectedFixedCode question ocr_code)) = true →
      analyze_programming_submission generate_test_cases_simple false runCase
        question ocr_code
        = ⟨0, "Docker not available to run tests; could not execute test cases.".data⟩ := by
  intro r q ocr h1 h2
  unfold analyze_programming_submission
  rw [if_neg h1]
  dsimp only
  rw [h2]
  cases hgen : generate_test_cases_simple q
      (detect_language (selectedFixedCode q ocr)) with
  | nil => exact absurd hgen (generate_test_cases_simple_ne_nil _ _)
  | cons a t =>
    rw [run_code_in_docker_unavailable _ _ _ _ (by simp)]
    simp

/-- Witness for C9 at a concrete input. -/
theorem c9_witness :
    analyze_programming_submission generate_test_cases_simple false
      (fun _ _ _ => none) "sum".data "input()".data
      = ⟨0, "Docker not available to run tests; could not execute test cases.".data⟩ := by
  have hsel : selectedFixedCode "sum".data "input()".data = "input()".data := by
    rw [selectedFixedCode_singleton "sum".data "input()".data "input()".data (by decide)]
    decide
  exact c9_docker_unavailable_scores_zero (fun _ _ _ => none) "sum".data
    "input()".data (by decide) (by rw [hsel]; decide)

/-! ## C3: duplicate detection -/

/-- Unpacking the query predicate. -/
theorem plagMatch_true {a h : Str} {d : StoredDoc} (hm : plagMatch a h d = true) :
    d.assignment_id = a ∧ h ∈ d.file_hashes := by
  simpa [plagMatch] using hm

/-- Whenever the plagiarism loop reports a match, the reported student is a
different, non-empty student and a stored document of the same assignment
really contains the reported (submitted) hash. -/
theorem plagCheck_some_spec (store : List StoredDoc) (s a : Str) :
    ∀ (hashes : List Str) (info : PlagInfo),
      plagCheck store s a hashes = some info →
      info.matched_student ≠ [] ∧ info.matched_student ≠ s
      ∧ info.matched_hash ∈ hashes
      ∧ ∃ d ∈ store, d.assignment_id = a ∧ info.matched_hash ∈ d.file_hashes
          ∧ d.student_id = info.matched_student := by
  intro hashes
  induction hashes with
  | nil => intro info hc; simp [plagCheck] at hc
  | cons x rest ih =>
    intro info hc
    unfold plagCheck at hc
    cases hx : store.find? (plagMatch a x) with
    | none =>
      rw [hx] at hc
      obtain ⟨h1, h2, h3, h4⟩ := ih info hc
      exact ⟨h1, h2, List.mem_cons_of_mem _ h3, h4⟩
    | some d =>
      rw [hx] at hc
      dsimp only at hc
      by_cases hd : d.student_id ≠ [] ∧ d.student_id ≠ s
      · rw [if_pos hd] at hc
        obtain ⟨hma, hmh⟩ := plagMatch_true (List.find?_some hx)
        cases hc
        exact ⟨hd.1, hd.2, List.mem_cons_self _ _,
          d, List.mem_of_find?_eq_some hx, hma, hmh, rfl⟩
      · rw [if_neg hd] at hc
        obtain ⟨h1, h2, h3, h4⟩ := ih info hc
        exact ⟨h1, h2, List.mem_cons_of_mem _ h3, h4⟩

/-- If, for some submitted hash, the *first* stored document matching the
query belongs to a different (non-empty) student, the loop does flag. -/
theorem plagCheck_complete (store : List StoredDoc) (s a : Str) :
    ∀ (hashes : List Str) (h : Str) (d : StoredDoc), h ∈ hashes →
      store.find? (plagMatch a h) = some d →
      d.student_id ≠ [] → d.student_id ≠ s →
      (plagCheck store s a hashes).isSome := by
  intro hashes
  induction hashes with
  | nil => intro h d hh; cases hh
  | cons x rest ih =>
    intro h d hh hfind h1 h2
    unfold plagCheck
    cases hx : store.find? (plagMatch a x) with
    | none =>
      rcases List.mem_cons.mp hh with rfl | hmem
      · rw [hx] at hfind; cases hfind
      · exact ih h d hmem hfind h1 h2
    | some d' =>
      dsimp only
      by_cases hd' : d'.student_id ≠ [] ∧ d'.student_id ≠ s
      · rw [if_pos hd']; rfl
      · rw [if_neg hd']
        rcases List.mem_cons.mp hh with rfl | hmem
        · rw [hx] at hfind
          cases hfind
          exact absurd ⟨h1, h2⟩ hd'
        · exact ih h d hmem hfind h1 h2

/-- When the plagiarism loop fires, the worker writes the fixed document. -/
theorem workerOutcome_of_plag (store : List StoredDoc) (s a : Str)
    (hashes : List Str) (q : Str) (ocrs names : List Str)
    (results : Nat → AnalyzerResult) (info : PlagInfo)
    (hc : plagCheck store s a hashes = some info) :
    workerOutcome store s a hashes q ocrs names results = plagResultDoc := by
  unfold workerOutcome
  rw [hc]

/-- C3 counterexample: the store holds, in query order, the submitting
student's own earlier document and then a different student's document, both
containing the submitted hash for the same assignment.  The hash *was*
previously persisted by a different student (`"zed"`), yet the `limit(1)`
query returns the student's own document first, so no plagiarism is flagged
and the result is a normally graded, unflagged document. -/
theorem c3_counterexample :
    plagCheck [⟨"alice".data, "a1".data, ["h1".data]⟩,
               ⟨"zed".data, "a1".data, ["h1".data]⟩]
      "alice".data "a1".data ["h1".data] = none
    ∧ (⟨"zed".data, "a1".data, ["h1".data]⟩ : StoredDoc) ∈
        [(⟨"alice".data, "a1".data, ["h1".data]⟩ : StoredDoc),
         ⟨"zed".data, "a1".data, ["h1".data]⟩]
    ∧ "zed".data ≠ "alice".data
    ∧ plagMatch "a1".data "h1".data ⟨"zed".data, "a1".data, ["h1".data]⟩ = true
    ∧ (workerOutcome [⟨"alice".data, "a1".data, ["h1".data]⟩,
          ⟨"zed".data, "a1".data, ["h1".data]⟩]
        "alice".data "a1".data ["h1".data] "q".data ["c".data] ["f".data]
        (fun _ => ⟨1, "ok".data⟩)).is_plagiarized = false := by
  have hnone : plagCheck [(⟨"alice".data, "a1".data, ["h1".data]⟩ : StoredDoc),
      ⟨"zed".data, "a1".data, ["h1".data]⟩]
      "alice".data "a1".data ["h1".data] = none := by decide
  refine ⟨hnone, by decide, by decide, by decide, ?_⟩
  unfold workerOutcome
  rw [hnone]

/-- C3 (amended): the grading result is overridden to the fixed zero-score
plagiarism document — part-level evaluation being skipped (the outcome does
not depend on the analyzer results) — exactly when, for some submitted
hash, the *first* stored document matching the `limit(1)` query belongs
to a different, non-empty student; whenever a match is reported it is a
genuine different-student match.  A hash whose first matching document is
the student's own (a resubmission) does not flag — even if a later stored
document of a different student also matches, as the counterexample shows.
When nothing is flagged, the result is the normally graded, unflagged
document. -/
theorem c3_amended_first_match_override :
    (∀ (store : List StoredDoc) (s a : Str) (hashes : List Str) (q : Str)
        (ocrs names : List Str) (results : Nat → AnalyzerResult) (info : PlagInfo),
      plagCheck store s a hashes = some info →
      workerOutcome store s a hashes q ocrs names results = plagResultDoc
      ∧ info.matched_student ≠ [] ∧ info.matched_student ≠ s
      ∧ info.matched_hash ∈ hashes
      ∧ ∃ d ∈ store, d.assignment_id = a ∧ info.matched_hash ∈ d.file_hashes
          ∧ d.student_id = info.matched_student)
    ∧ (∀ (store : List StoredDoc) (s a : Str) (hashes : List Str) (h : Str)
        (d : StoredDoc), h ∈ hashes →
      store.find? (plagMatch a h) = some d →
      d.student_id ≠ [] → d.student_id ≠ s →
      (plagCheck store s a hashes).isSome)
    ∧ (∀ (store : List StoredDoc) (s a : Str) (hashes : List Str) (q : Str)
        (ocrs names : List Str) (results : Nat → AnalyzerResult),
      plagCheck store s a hashes = none →
      (workerOutcome store s a hashes q ocrs names results).is_plagiarized = false) := by
  refine ⟨?_, plagCheck_complete, ?_⟩
  · intro store s a hashes q ocrs names results info hc
    exact ⟨workerOutcome_of_plag store s a hashes q ocrs names results info hc,
      plagCheck_some_spec store s a hashes info hc⟩
  · intro store s a hashes q ocrs names results hc
    unfold workerOutcome
    rw [hc]

/-- Witness for C3's amended claim: a single prior different-student
document triggers the fixed override regardless of analyzer results. -/
theorem c3_witness :
    workerOutcome [⟨"zed".data, "a1".data, ["h1".data]⟩]
      "bob".data "a1".data ["h1".data] "q".data ["c".data] ["f".data]
      (fun _ => ⟨1, "ok".data⟩) = plagResultDoc
    ∧ (⟨"zed".data, "h1".data⟩ : PlagInfo).matched_student ≠ []
    ∧ (⟨"zed".data, "h1".data⟩ : PlagInfo).matched_student ≠ "bob".data
    ∧ (⟨"zed".data, "h1".data⟩ : PlagInfo).matched_hash ∈ ["h1".data]
    ∧ ∃ d ∈ [(⟨"zed".data, "a1".data, ["h1".data]⟩ : StoredDoc)],
        d.assignment_id = "a1".data
        ∧ (⟨"zed".data, "h1".data⟩ : PlagInfo).matched_hash ∈ d.file_hashes
        ∧ d.student_id = (⟨"zed".data, "h1".data⟩ : PlagInfo).matched_student :=
  c3_amended_first_match_override.1 [⟨"zed".data, "a1".data, ["h1".data]⟩]
    "bob".data "a1".data ["h1".data] "q".data ["c".data] ["f".data]
    (fun _ => ⟨1, "ok".data⟩) ⟨"zed".data, "h1".data⟩ (by decide)

/-! ## C4: per-part result collection and the final mean -/

/-- `alookup` over an append looks left first. -/
theorem alookup_append {α : Type} (l1 l2 : List (Nat × α)) (j : Nat) :
    alookup (l1 ++ l2) j
      = match alookup l1 j with
        | some v => some v
        | none => alookup l2 j := by
  induction l1 with
  | nil => simp [alookup]
  | cons e r ih =>
    by_cases hk : e.1 = j <;> simp [alookup, hk, ih]

/-- A lookup misses exactly when the key is absent. -/
theorem alookup_eq_none_iff {α : Type} (l : List (Nat × α)) (j : Nat) :
    alookup l j = none ↔ j ∉ l.map Prod.fst := by
  induction l with
  | nil => simp [alookup]
  | cons e r ih =>
    simp only [alookup, List.map_cons, List.mem_cons]
    by_cases hk : e.1 = j
    · simp [hk]
    · simp [Ne.symm hk, hk, ih]

/-- A lookup hits exactly when the key is present. -/
theorem alookup_isSome_iff {α : Type} (l : List (Nat × α)) (j : Nat) :
    (alookup l j).isSome ↔ j ∈ l.map Prod.fst := by
  induction l with
  | nil => simp [alookup]
  | cons e r ih =>
    simp only [alookup, List.map_cons, List.mem_cons]
    by_cases hk : e.1 = j
    · simp [hk]
    · simp [Ne.symm hk, hk, ih]

/-- Replacing the entry at key `j` leaves other lookups unchanged. -/
theorem alookup_map_replace (pr : List PartEntry) (j k : Nat) (newE : PartEntry)
    (hnew : newE.1 = j) (hk : k ≠ j) :
    alookup (pr.map (fun e => if e.1 = j then newE else e)) k = alookup pr k := by
  induction pr with
  | nil => rfl
  | cons p rest ih =>
    by_cases hp : p.1 = j
    · have hjk : ¬ j = k := fun hx => hk hx.symm
      simp [alookup, hp, hnew, hjk, ih]
    · simp [alookup, hp, ih]

/-- `updateBest` at part `j` leaves other parts' lookups unchanged. -/
theorem alookup_updateBest_ne (pr : List PartEntry) (i j k : Nat)
    (r : AnalyzerResult) (hk : k ≠ j) :
    alookup (updateBest pr i j r) k = alookup pr k := by
  unfold updateBest
  cases h : alookup pr j with
  | none =>
    dsimp only
    rw [alookup_append]
    cases hk2 : alookup pr k with
    | some v => rfl
    | none =>
      have hjk : ¬ j = k := fun hx => hk hx.symm
      simp [alookup, hjk]
  | some old =>
    dsimp only
    split
    · exact alookup_map_replace pr j k (j, r, some i) rfl hk
    · rfl

/-- `updateBest` on a fresh part appends its key. -/
theorem updateBest_keys_of_none (pr : List PartEntry) (i j : Nat)
    (r : AnalyzerResult) (h : alookup pr j = none) :
    (updateBest pr i j r).map Prod.fst = pr.map Prod.fst ++ [j] := by
  unfold updateBest
  rw [h]
  simp

/-- `updateBest` on a taken part keeps the key list. -/
theorem updateBest_keys_of_some (pr : List PartEntry) (i j : Nat)
    (r : AnalyzerResult) (old : AnalyzerResult × Option Nat)
    (h : alookup pr j = some old) :
    (updateBest pr i j r).map Prod.fst = pr.map Prod.fst := by
  unfold updateBest
  rw [h]
  dsimp only
  split
  · rw [List.map_map]
    apply List.map_congr_left
    intro e _
    by_cases he : e.1 = j <;> simp [he]
  · rfl

/-- Parts never mentioned by the mapping keep their (absent) entry. -/
theorem selectPartResults_untouched (results : Nat → AnalyzerResult) :
    ∀ (mapping : List (Nat × Nat)) (pr : List PartEntry) (j : Nat),
      j ∉ mapping.map Prod.snd →
      alookup (selectPartResults results mapping pr) j = alookup pr j := by
  intro mapping
  induction mapping with
  | nil => intro pr j _; rfl
  | cons m rest ih =>
    intro pr j hj
    cases m with
    | mk i j' =>
      simp only [List.map_cons, List.mem_cons] at hj
      push_neg at hj
      rw [show selectPartResults results ((i, j') :: rest) pr
          = selectPartResults results rest (updateBest pr i j' (results i)) from rfl]
      rw [ih _ _ hj.2, alookup_updateBest_ne _ _ _ _ _ hj.1]

/-- The collection loop keeps the part keys duplicate-free. -/
theorem selectPartResults_nodup_keys (results : Nat → AnalyzerResult) :
    ∀ (mapping : List (Nat × Nat)) (pr : List PartEntry),
      (pr.map Prod.fst).Nodup →
      ((selectPartResults results mapping pr).map Prod.fst).Nodup := by
  intro mapping
  induction mapping with
  | nil => intro pr h; exact h
  | cons m rest ih =>
    intro pr h
    cases m with
    | mk i j' =>
      rw [show selectPartResults results ((i, j') :: rest) pr
          = selectPartResults results rest (updateBest pr i j' (results i)) from rfl]
      apply ih
      cases hl : alookup pr j' with
      | none =>
        rw [updateBest_keys_of_none _ _ _ _ hl]
        rw [← List.concat_eq_append]
        exact List.Nodup.concat ((alookup_eq_none_iff _ _).mp hl) h
      | some old => rw [updateBest_keys_of_some _ _ _ _ _ hl]; exact h

/-- The fill loop preserves entries that are already present. -/
theorem fillParts_preserve (pr : List PartEntry) (j : Nat)
    (v : AnalyzerResult × Option Nat) (h : alookup pr j = some v) :
    ∀ n, alookup (fillParts n pr) j = some v := by
  intro n
  induction n with
  | zero => exact h
  | succ m ih =>
    unfold fillParts
    dsimp only
    split
    · exact ih
    · rw [alookup_append, ih]

/-- The fill loop does not touch part indices at or beyond the part count. -/
theorem fillParts_ge (pr : List PartEntry) (j : Nat) :
    ∀ n, n ≤ j → alookup (fillParts n pr) j = alookup pr j := by
  intro n
  induction n with
  | zero => intro _; rfl
  | succ m ih =>
    intro h
    unfold fillParts
    dsimp only
    split
    · exact ih (Nat.le_of_succ_le h)
    · rw [alookup_append, ih (Nat.le_of_succ_le h)]
      cases hk : alookup pr j with
      | some v => rfl
      | none =>
        have : ¬ m = j := by omega
        simp [alookup, this]

/-- A part in range with no collected result ends up with the explicit
zero "no submission" entry. -/
theorem fillParts_new (pr : List PartEntry) (j : Nat) :
    ∀ n, j < n → alookup pr j = none →
      alookup (fillParts n pr) j = some (noSubResult j, none) := by
  intro n
  induction n with
  | zero => intro h; exact absurd h (Nat.not_lt_zero j)
  | succ m ih =>
    intro hn h
    unfold fillParts
    dsimp only
    by_cases hj : j < m
    · split
      · exact ih hj h
      · rw [alookup_append, ih hj h]
    · have hj2 : j = m := by omega
      subst hj2
      have hge := fillParts_ge pr j j (Nat.le_refl j)
      split
      · rename_i hs
        rw [hge, h] at hs
        cases hs
      · rw [alookup_append, hge, h]
        simp [alookup]

/-- The fill loop keeps the part keys duplicate-free. -/
theorem fillParts_nodup (pr : List PartEntry)
    (h : (pr.map Prod.fst).Nodup) :
    ∀ n, ((fillParts n pr).map Prod.fst).Nodup := by
  intro n
  induction n with
  | zero => exact h
  | succ m ih =>
    unfold fillParts
    dsimp only
    split
    · exact ih
    · rename_i hs
      rw [List.map_append]
      simp only [List.map_cons, List.map_nil]
      rw [← List.concat_eq_append]
      apply List.Nodup.concat
      · have : alookup (fillParts m pr) m = none := by
          cases hx : alookup (fillParts m pr) m with
          | none => rfl
          | some v => rw [hx] at hs; exact absurd rfl hs
        exact (alookup_eq_none_iff _ _).mp this
      · exact ih

/-- Indices in an `enumFrom` are bounded. -/
theorem mem_enumFrom_fst_lt {α : Type} :
    ∀ (l : List α) (n : Nat) (p : Nat × α), p ∈ List.enumFrom n l → p.1 < n + l.length := by
  intro l
  induction l with
  | nil => intro n p h; cases h
  | cons a t ih =>
    intro n p h
    rcases List.mem_cons.mp h with rfl | hmem
    · simp
    · have := ih (n + 1) p hmem
      simp only [List.length_cons]
      omega

/-- The argmax accumulator stays below the part count. -/
theorem bestJAux_lt (pt : Finset Str) (n : Nat) :
    ∀ (l : List (Nat × Finset Str)) (best : Nat × ℚ),
      best.1 < n → (∀ p ∈ l, p.1 < n) → (bestJAux pt l best).1 < n := by
  intro l
  induction l with
  | nil => intro best hb _; exact hb
  | cons p rest ih =>
    intro best hb hl
    cases p with
    | mk j qt =>
      rw [show bestJAux pt ((j, qt) :: rest) best
          = bestJAux pt rest
              (if overlapScore pt qt > best.2 then (j, overlapScore pt qt) else best) from rfl]
      apply ih
      · split
        · exact hl (j, qt) (List.mem_cons_self _ _)
        · exact hb
      · exact fun q hq => hl q (List.mem_cons_of_mem _ hq)

/-- The chosen part index is always in range (for a non-empty part list). -/
theorem bestJ_lt (pt : Finset Str) (qts : List (Finset Str)) (h : qts ≠ []) :
    bestJ pt qts < qts.length := by
  unfold bestJ
  apply bestJAux_lt
  · cases qts with
    | nil => exact absurd rfl h
    | cons a t => simp
  · intro p hp
    have := mem_enumFrom_fst_lt qts 0 p hp
    simpa using this

/-- Every part index the mapping produces is in range. -/
theorem buildMapping_snd_lt (o q : List Str) (hq : q ≠ []) :
    ∀ p ∈ buildMapping o q, p.2 < q.length := by
  intro p hp
  unfold buildMapping at hp
  split at hp
  · obtain ⟨i, hi, rfl⟩ := List.mem_map.mp hp
    exact List.mem_range.mp hi
  · obtain ⟨it, hit, rfl⟩ := List.mem_map.mp hp
    dsimp only
    have hmap : (q.map token_set) ≠ [] := by
      intro hx
      exact hq (List.map_eq_nil_iff.mp hx)
    have := bestJ_lt (token_set it.2) (q.map token_set) hmap
    simpa using this

/-- The question splitter never returns an empty list. -/
theorem split_question_into_parts_ne_nil (q : Str) :
    split_question_into_parts q ≠ [] := by
  unfold split_question_into_parts
  repeat' split <;> simp_all

/-- C4: for every grading request, the question split yields `N ≥ 1` parts;
after the worker's collection and fill, every part index `0..N-1` has
exactly one result entry (the keys are duplicate-free and a lookup succeeds
exactly for indices below `N`); a part no attachment was mapped to carries
score 0 with the "no submission" justification; and the overall score is
the arithmetic mean of the `N` per-part scores. -/
theorem c4_every_part_exactly_one_result_mean :
    ∀ (question : Str) (ocr_texts : List Str) (results : Nat → AnalyzerResult),
      1 ≤ (split_question_into_parts question).length
      ∧ ((workerPartResults question ocr_texts results).map Prod.fst).Nodup
      ∧ (∀ j, j < (split_question_into_parts question).length ↔
          (alookup (workerPartResults question ocr_texts results) j).isSome)
      ∧ (∀ j, j < (split_question_into_parts question).length →
          j ∉ (buildMapping ocr_texts (split_question_into_parts question)).map Prod.snd →
          alookup (workerPartResults question ocr_texts results) j
            = some (noSubResult j, none))
      ∧ finalScoreOf (split_question_into_parts question).length
          (workerPartResults question ocr_texts results)
        = ((List.range (split_question_into_parts question).length).map
            (partScore (workerPartResults question ocr_texts results))).sum
          / (((split_question_into_parts question).length : ℚ)) := by
  intro q o r
  have hne : split_question_into_parts q ≠ [] := split_question_into_parts_ne_nil q
  have hn : 1 ≤ (split_question_into_parts q).length :=
    Nat.succ_le_of_lt (List.length_pos.mpr hne)
  have hsnd : ∀ p ∈ buildMapping o (split_question_into_parts q),
      p.2 < (split_question_into_parts q).length :=
    buildMapping_snd_lt o _ hne
  refine ⟨hn, ?_, ?_, ?_, ?_⟩
  · unfold workerPartResults
    exact fillParts_nodup _ (selectPartResults_nodup_keys r _ [] (by simp)) _
  · intro j
    unfold workerPartResults
    constructor
    · intro hj
      cases hsel : alookup (selectPartResults r
          (buildMapping o (split_question_into_parts q)) []) j with
      | some v =>
        rw [fillParts_preserve _ _ _ hsel]
        rfl
      | none =>
        rw [fillParts_new _ _ _ hj hsel]
        rfl
    · intro hsome
      by_contra hge
      push_neg at hge
      have h1 : j ∉ (buildMapping o (split_question_into_parts q)).map Prod.snd := by
        intro hmem
        obtain ⟨p, hp, hpj⟩ := List.mem_map.mp hmem
        have := hsnd p hp
        omega
      have h2 : alookup (selectPartResults r
          (buildMapping o (split_question_into_parts q)) []) j = none := by
        rw [selectPartResults_untouched r _ [] j h1]
        rfl
      rw [fillParts_ge _ j _ hge, h2] at hsome
      cases hsome
  · intro j hj hnot
    unfold workerPartResults
    have h2 : alookup (selectPartResults r
        (buildMapping o (split_question_into_parts q)) []) j = none := by
      rw [selectPartResults_untouched r _ [] j hnot]
      rfl
    exact fillParts_new _ _ _ hj h2
  · unfold finalScoreOf
    rw [if_neg]
    · simp
    · simp only [ne_eq, List.map_eq_nil_iff, List.range_eq_nil]
      omega

/-- Witness for C4: a one-part question with no attachments — the single
part gets exactly the explicit zero "no submission" entry. -/
theorem c4_witness :
    alookup (workerPartResults "a".data [] (fun _ => ⟨1, "x".data⟩)) 0
      = some (noSubResult 0, none)
    ∧ (0 < (split_question_into_parts "a".data).length ↔
        (alookup (workerPartResults "a".data [] (fun _ => ⟨1, "x".data⟩)) 0).isSome) := by
  have h := c4_every_part_exactly_one_result_mean "a".data [] (fun _ => ⟨1, "x".data⟩)
  exact ⟨h.2.2.2.1 0 (by decide) (by decide), h.2.2.1 0⟩

/-! # Part-splitter lemmas and C8 -/

theorem dw_idem (p : Char → Bool) (l : Str) :
    (l.dropWhile p).dropWhile p = l.dropWhile p := by
  induction l with
  | nil => rfl
  | cons c r ih =>
    by_cases h : p c
    · simp [List.dropWhile_cons, h, ih]
    · simp [List.dropWhile_cons, h]

theorem dw_append_of_all (p : Char → Bool) (a b : Str) (h : ∀ c ∈ a, p c) :
    (a ++ b).dropWhile p = b.dropWhile p := by
  induction a with
  | nil => rfl
  | cons c r ih =>
    have hc : p c := h c (List.mem_cons_self _ _)
    simp only [List.cons_append, List.dropWhile_cons, hc, if_true]
    exact ih (fun x hx => h x (List.mem_cons_of_mem _ hx))

theorem dw_append_of_head (p : Char → Bool) (a b : Str) (h : a.dropWhile p ≠ []) :
    (a ++ b).dropWhile p = a.dropWhile p ++ b := by
  induction a with
  | nil => exact absurd rfl h
  | cons c r ih =>
    by_cases hc : p c
    · simp only [List.dropWhile_cons, hc, if_true] at h ⊢
      simp only [List.cons_append, List.dropWhile_cons, hc, if_true]
      exact ih h
    · simp [List.dropWhile_cons, hc]

theorem pyLstrip_idem (s : Str) : pyLstrip (pyLstrip s) = pyLstrip s := dw_idem isWS s

theorem pyRstrip_idem (s : Str) : pyRstrip (pyRstrip s) = pyRstrip s := by
  unfold pyRstrip
  rw [List.reverse_reverse, pyLstrip_idem]

theorem pyLstrip_ws_front (ws s : Str) (h : ∀ c ∈ ws, isWS c) :
    pyLstrip (ws ++ s) = pyLstrip s := dw_append_of_all isWS ws s h

theorem pyLstrip_cons_ws (c : Char) (s : Str) (h : isWS c) :
    pyLstrip (c :: s) = pyLstrip s := by
  simp [pyLstrip, List.dropWhile_cons, h]

theorem pyLstrip_cons_not_ws (c : Char) (s : Str) (h : ¬ isWS c) :
    pyLstrip (c :: s) = c :: s := by
  simp [pyLstrip, List.dropWhile_cons, h]

theorem pyLstrip_eq_nil_iff (s : Str) : pyLstrip s = [] ↔ ∀ c ∈ s, isWS c :=
  List.dropWhile_eq_nil_iff

theorem pyRstrip_eq_nil_iff (s : Str) : pyRstrip s = [] ↔ ∀ c ∈ s, isWS c := by
  unfold pyRstrip
  rw [List.reverse_eq_nil_iff, pyLstrip_eq_nil_iff]
  constructor
  · intro h c hc
    exact h c (List.mem_reverse.mpr hc)
  · intro h c hc
    exact h c (List.mem_reverse.mp hc)

theorem pyRstrip_ws_suffix (s ws : Str) (h : ∀ c ∈ ws, isWS c) :
    pyRstrip (s ++ ws) = pyRstrip s := by
  unfold pyRstrip
  rw [List.reverse_append]
  rw [pyLstrip_ws_front _ _ (fun c hc => h c (List.mem_reverse.mp hc))]

theorem pyRstrip_cons_of_not_blank (c : Char) (s : Str)
    (h : pyRstrip s ≠ []) : pyRstrip (c :: s) = c :: pyRstrip s := by
  have h2 : pyLstrip s.reverse ≠ [] := by
    intro hx
    exact h (by unfold pyRstrip; rw [hx]; rfl)
  unfold pyRstrip
  rw [List.reverse_cons]
  rw [show pyLstrip (s.reverse ++ [c]) = pyLstrip s.reverse ++ [c] from
    dw_append_of_head isWS _ _ h2]
  simp

theorem pyRstrip_cons_not_ws (c : Char) (s : Str) (h : ¬ isWS c) :
    pyRstrip (c :: s) = c :: pyRstrip s := by
  by_cases hb : pyRstrip s = []
  · have hall := (pyRstrip_eq_nil_iff s).mp hb
    have : ∀ x ∈ s.reverse, isWS x := fun x hx => hall x (List.mem_reverse.mp hx)
    unfold pyRstrip
    rw [List.reverse_cons]
    rw [show pyLstrip (s.reverse ++ [c]) = pyLstrip [c] from
      dw_append_of_all isWS _ _ this]
    rw [pyLstrip_cons_not_ws c [] h]
    have hb2 : pyLstrip s.reverse = [] := by
      have := congrArg List.reverse hb
      unfold pyRstrip at this
      simpa using this
    simp [hb2]
  · exact pyRstrip_cons_of_not_blank c s hb

theorem pyStrip_cons_ws (c : Char) (s : Str) (h : isWS c) :
    pyStrip (c :: s) = pyStrip s := by
  unfold pyStrip
  rw [pyLstrip_cons_ws c s h]

theorem pyStrip_eq_nil_iff (s : Str) : pyStrip s = [] ↔ ∀ c ∈ s, isWS c := by
  unfold pyStrip
  rw [pyRstrip_eq_nil_iff]
  constructor
  · intro h c hc
    by_cases hall : ∀ x ∈ s, isWS x
    · exact hall c hc
    · -- pyLstrip s = takeWhile-dropped; every c ∈ s is in (takeWhile ++ dropWhile)
      rcases List.mem_append.mp (by
        rw [List.takeWhile_append_dropWhile (p := isWS)]
        exact hc : c ∈ s.takeWhile isWS ++ s.dropWhile isWS) with hm | hm
      · exact List.mem_takeWhile_imp hm
      · exact h c hm
  · intro h c hc
    have : c ∈ s := by
      have := List.takeWhile_append_dropWhile (p := isWS) (l := s)
      rw [← this]
      exact List.mem_append.mpr (Or.inr hc)
    exact h c this

theorem pyLstrip_head_not_ws (s : Str) (h : pyLstrip s ≠ []) :
    ∃ d t, pyLstrip s = d :: t ∧ ¬ isWS d := by
  induction s with
  | nil => exact absurd rfl h
  | cons c r ih =>
    by_cases hc : isWS c
    · rw [pyLstrip_cons_ws c r hc] at h ⊢
      exact ih h
    · exact ⟨c, r, pyLstrip_cons_not_ws c r hc, hc⟩

theorem pyStrip_idem (s : Str) : pyStrip (pyStrip s) = pyStrip s := by
  unfold pyStrip
  have h1 : pyLstrip (pyRstrip (pyLstrip s)) = pyRstrip (pyLstrip s) := by
    by_cases hx : pyLstrip s = []
    · rw [hx]
      rfl
    · obtain ⟨d, t, hdt, hd⟩ := pyLstrip_head_not_ws s hx
      rw [hdt, pyRstrip_cons_not_ws d t hd, pyLstrip_cons_not_ws d _ hd]
  rw [h1, pyRstrip_idem]

theorem pyStrip_lstripped (s : Str) : pyLstrip (pyStrip s) = pyStrip s := by
  by_cases hx : pyLstrip s = []
  · unfold pyStrip
    rw [hx]
    rfl
  · obtain ⟨d, t, hdt, hd⟩ := pyLstrip_head_not_ws s hx
    unfold pyStrip
    rw [hdt, pyRstrip_cons_not_ws d t hd, pyLstrip_cons_not_ws d _ hd]

theorem pyStrip_rstripped (s : Str) : pyRstrip (pyStrip s) = pyStrip s := by
  unfold pyStrip
  rw [pyRstrip_idem]

theorem pyStrip_ws_front (ws s : Str) (h : ∀ c ∈ ws, isWS c) :
    pyStrip (ws ++ s) = pyStrip s := by
  unfold pyStrip
  rw [pyLstrip_ws_front ws s h]

theorem pyStrip_append_pyLstrip (a z : Str) :
    pyStrip (pyLstrip a ++ z) = pyStrip (a ++ z) := by
  conv_rhs =>
    rw [show a = a.takeWhile isWS ++ a.dropWhile isWS from
      (List.takeWhile_append_dropWhile (p := isWS) (l := a)).symm]
  rw [List.append_assoc]
  rw [show (a.dropWhile isWS : Str) = pyLstrip a from rfl]
  rw [pyStrip_ws_front _ _ (fun c hc => List.mem_takeWhile_imp hc)]

/-! splitNl and linesOf lemmas -/

theorem splitNl_ne_nil (s : Str) : splitNl s ≠ [] := by
  cases s with
  | nil => simp [splitNl]
  | cons c r =>
    unfold splitNl
    by_cases h : c = '\n'
    · simp [h]
    · simp only [h, if_false]
      cases splitNl r <;> simp

theorem splitNl_mem_subset (s : Str) :
    ∀ l ∈ splitNl s, ∀ c ∈ l, c ∈ s := by
  induction s with
  | nil =>
    intro l hl c hc
    simp [splitNl] at hl
    subst hl
    cases hc
  | cons d r ih =>
    intro l hl c hc
    unfold splitNl at hl
    by_cases hd : d = '\n'
    · rw [if_pos hd] at hl
      rcases List.mem_cons.mp hl with rfl | hm
      · cases hc
      · exact List.mem_cons_of_mem _ (ih l hm c hc)
    · rw [if_neg hd] at hl
      cases hr : splitNl r with
      | nil => exact absurd hr (splitNl_ne_nil r)
      | cons h0 t =>
        rw [hr] at hl
        rcases List.mem_cons.mp hl with rfl | hm
        · rcases List.mem_cons.mp hc with rfl | hm2
          · exact List.mem_cons_self _ _
          · exact List.mem_cons_of_mem _ (ih h0 (by rw [hr]; exact List.mem_cons_self _ _) c hm2)
        · exact List.mem_cons_of_mem _ (ih l (by rw [hr]; exact List.mem_cons_of_mem _ hm) c hc)

theorem splitNl_no_newline (s : Str) :
    ∀ l ∈ splitNl s, '\n' ∉ l := by
  induction s with
  | nil =>
    intro l hl
    simp [splitNl] at hl
    subst hl
    simp
  | cons d r ih =>
    intro l hl
    unfold splitNl at hl
    by_cases hd : d = '\n'
    · rw [if_pos hd] at hl
      rcases List.mem_cons.mp hl with rfl | hm
      · simp
      · exact ih l hm
    · rw [if_neg hd] at hl
      cases hr : splitNl r with
      | nil => exact absurd hr (splitNl_ne_nil r)
      | cons h0 t =>
        rw [hr] at hl
        rcases List.mem_cons.mp hl with rfl | hm
        · intro hmem
          rcases List.mem_cons.mp hmem with heq | hm2
          · exact hd heq.symm
          · exact ih h0 (by rw [hr]; exact List.mem_cons_self _ _) hm2
        · exact ih l (by rw [hr]; exact List.mem_cons_of_mem _ hm)

theorem splitNl_cons_nl (r : Str) : splitNl ('\n' :: r) = [] :: splitNl r := by
  rw [splitNl]
  rw [if_pos rfl]

theorem splitNl_cons_other (c : Char) (r : Str) (hc : ¬ c = '\n') :
    splitNl (c :: r)
      = match splitNl r with | [] => [[c]] | h :: t => (c :: h) :: t := by
  rw [splitNl]
  rw [if_neg hc]

theorem splitNl_append (a b : Str) :
    splitNl (a ++ b) = glueSplits (splitNl a) (splitNl b) := by
  induction a with
  | nil =>
    cases hb : splitNl b with
    | nil => exact absurd hb (splitNl_ne_nil b)
    | cons h t => simp [splitNl, glueSplits, hb]
  | cons c r ih =>
    by_cases hc : c = '\n'
    · subst hc
      rw [List.cons_append, splitNl_cons_nl, splitNl_cons_nl, ih]
      cases hr : splitNl r with
      | nil => exact absurd hr (splitNl_ne_nil r)
      | cons h t => rfl
    · rw [List.cons_append, splitNl_cons_other c _ hc, splitNl_cons_other c _ hc, ih]
      cases hr : splitNl r with
      | nil => exact absurd hr (splitNl_ne_nil r)
      | cons h t =>
        cases hb : splitNl b with
        | nil => exact absurd hb (splitNl_ne_nil b)
        | cons hb0 tb =>
          cases t with
          | nil => rfl
          | cons h2 t2 => rfl

/-! linesOf lemmas -/

theorem keepLine_nil : keepLine ([] : Str) = none := rfl

theorem linesOf_cons_nl (r : Str) : linesOf ('\n' :: r) = linesOf r := by
  unfold linesOf
  rw [splitNl_cons_nl, List.filterMap_cons, keepLine_nil]

theorem pyStrip_ws_suffix (s w : Str) (h : ∀ c ∈ w, isWS c) :
    pyStrip (s ++ w) = pyStrip s := by
  by_cases hs : pyLstrip s = []
  · have hall : ∀ c ∈ s, isWS c := (pyLstrip_eq_nil_iff s).mp hs
    have hall2 : ∀ c ∈ s ++ w, isWS c := by
      intro c hc
      rcases List.mem_append.mp hc with hm | hm
      · exact hall c hm
      · exact h c hm
    rw [(pyStrip_eq_nil_iff _).mpr hall2, (pyStrip_eq_nil_iff _).mpr hall]
  · unfold pyStrip
    rw [show pyLstrip (s ++ w) = pyLstrip s ++ w from dw_append_of_head isWS _ _ hs]
    exact pyRstrip_ws_suffix _ _ h

theorem keepLine_append_ws (s w : Str) (h : ∀ c ∈ w, isWS c) :
    keepLine (s ++ w) = keepLine s := by
  unfold keepLine
  rw [pyStrip_ws_suffix s w h, pyRstrip_ws_suffix s w h]

theorem filterMap_keepLine_all_ws (W : List Str)
    (hW : ∀ l ∈ W, ∀ c ∈ l, isWS c) :
    W.filterMap keepLine = [] := by
  induction W with
  | nil => rfl
  | cons w wt ih =>
    rw [List.filterMap_cons]
    have : keepLine w = none := by
      unfold keepLine
      rw [(pyStrip_eq_nil_iff w).mpr (hW w (List.mem_cons_self _ _))]
      rfl
    rw [this]
    exact ih (fun l hl => hW l (List.mem_cons_of_mem _ hl))

theorem filterMap_glue (S W : List Str)
    (hW : ∀ l ∈ W, ∀ c ∈ l, isWS c) (hS : S ≠ []) :
    (glueSplits S W).filterMap keepLine = S.filterMap keepLine := by
  induction S with
  | nil => exact absurd rfl hS
  | cons s rest ih =>
    cases rest with
    | nil =>
      cases W with
      | nil => rfl
      | cons w0 wt =>
        show ((s ++ w0) :: wt).filterMap keepLine = [s].filterMap keepLine
        rw [List.filterMap_cons, List.filterMap_cons]
        rw [keepLine_append_ws s w0 (hW w0 (List.mem_cons_self _ _))]
        rw [filterMap_keepLine_all_ws wt (fun l hl => hW l (List.mem_cons_of_mem _ hl))]
        cases keepLine s <;> rfl
    | cons s2 rest2 =>
      show (s :: glueSplits (s2 :: rest2) W).filterMap keepLine
        = (s :: s2 :: rest2).filterMap keepLine
      rw [List.filterMap_cons, List.filterMap_cons, ih (by simp)]

theorem linesOf_append_ws (x w : Str) (h : ∀ c ∈ w, isWS c) :
    linesOf (x ++ w) = linesOf x := by
  unfold linesOf
  rw [splitNl_append]
  exact filterMap_glue (splitNl x) (splitNl w)
    (fun l hl c hc => h c (splitNl_mem_subset w l hl c hc)) (splitNl_ne_nil x)

theorem pyRstrip_decomp (q : Str) :
    ∃ w, q = pyRstrip q ++ w ∧ ∀ c ∈ w, isWS c := by
  refine ⟨(q.reverse.takeWhile isWS).reverse, ?_, ?_⟩
  · have h2 := congrArg List.reverse
      (List.takeWhile_append_dropWhile (p := isWS) (l := q.reverse))
    rw [List.reverse_append, List.reverse_reverse] at h2
    exact h2.symm
  · intro c hc
    exact List.mem_takeWhile_imp (List.mem_reverse.mp hc)

theorem linesOf_pyRstrip (q : Str) : linesOf (pyRstrip q) = linesOf q := by
  obtain ⟨w, hq, hw⟩ := pyRstrip_decomp q
  conv_rhs => rw [hq]
  rw [linesOf_append_ws _ _ hw]

theorem pyRstrip_ne_nil_of_strip {h : Str} (hb : pyStrip h ≠ []) : pyRstrip h ≠ [] :=
  fun hx => hb ((pyStrip_eq_nil_iff h).mpr ((pyRstrip_eq_nil_iff h).mp hx))

theorem keepLine_of_not_blank {h : Str} (hb : pyStrip h ≠ []) :
    keepLine h = some (pyRstrip h) := by
  unfold keepLine
  rw [if_neg hb]

theorem keepLine_of_blank {h : Str} (hb : pyStrip h = []) : keepLine h = none := by
  unfold keepLine
  rw [if_pos hb]

theorem lstripHead_linesOf_cons_ws (c : Char) (r : Str) (hc : isWS c) :
    lstripHead (linesOf (c :: r)) = lstripHead (linesOf r) := by
  by_cases hnl : c = '\n'
  · subst hnl
    rw [linesOf_cons_nl]
  · cases hsr : splitNl r with
    | nil => exact absurd hsr (splitNl_ne_nil r)
    | cons h t =>
      unfold linesOf
      rw [splitNl_cons_other c r hnl, hsr]
      rw [List.filterMap_cons, List.filterMap_cons]
      by_cases hb : pyStrip h = []
      · rw [keepLine_of_blank hb]
        rw [keepLine_of_blank (by rw [pyStrip_cons_ws c h hc]; exact hb)]
      · have hrne : pyRstrip h ≠ [] := pyRstrip_ne_nil_of_strip hb
        rw [keepLine_of_not_blank hb]
        rw [show keepLine (c :: h) = some (c :: pyRstrip h) from ?_]
        · show lstripHead ((c :: pyRstrip h) :: t.filterMap keepLine)
            = lstripHead (pyRstrip h :: t.filterMap keepLine)
          show pyLstrip (c :: pyRstrip h) :: t.filterMap keepLine
            = pyLstrip (pyRstrip h) :: t.filterMap keepLine
          rw [pyLstrip_cons_ws _ _ hc]
        · unfold keepLine
          rw [if_neg (by rw [pyStrip_cons_ws c h hc]; exact hb)]
          rw [pyRstrip_cons_of_not_blank c h hrne]

theorem linesOf_pyLstrip (q : Str) : linesOf (pyLstrip q) = lstripHead (linesOf q) := by
  induction q with
  | nil => rfl
  | cons c r ih =>
    by_cases hc : isWS c
    · rw [pyLstrip_cons_ws c r hc, ih, ← lstripHead_linesOf_cons_ws c r hc]
    · rw [pyLstrip_cons_not_ws c r hc]
      have hnl : ¬ c = '\n' := by
        intro hx
        rw [hx] at hc
        exact hc rfl
      cases hsr : splitNl r with
      | nil => exact absurd hsr (splitNl_ne_nil r)
      | cons h t =>
        unfold linesOf
        rw [splitNl_cons_other c r hnl, hsr, List.filterMap_cons]
        have hsne : pyStrip (c :: h) ≠ [] := by
          intro hx
          exact hc ((pyStrip_eq_nil_iff _).mp hx c (List.mem_cons_self _ _))
        rw [show keepLine (c :: h) = some (c :: pyRstrip h) from by
          rw [keepLine_of_not_blank hsne, pyRstrip_cons_not_ws c h hc]]
        show (c :: pyRstrip h) :: t.filterMap keepLine
          = lstripHead ((c :: pyRstrip h) :: t.filterMap keepLine)
        show (c :: pyRstrip h) :: t.filterMap keepLine
          = pyLstrip (c :: pyRstrip h) :: t.filterMap keepLine
        rw [pyLstrip_cons_not_ws _ _ hc]

theorem linesOf_pyStrip (q : Str) :
    linesOf (pyStrip q) = lstripHead (linesOf q) := by
  unfold pyStrip
  rw [linesOf_pyRstrip (pyLstrip q)]
  exact linesOf_pyLstrip q

/-! buildParts lemmas -/

theorem matchMarker_pyLstrip (l : Str) : matchMarker (pyLstrip l) = matchMarker l := by
  unfold matchMarker
  rw [pyLstrip_idem]

theorem joinSpace_cons_cons (y z : Str) (zs : List Str) :
    joinSpace (y :: z :: zs) = y ++ ' ' :: joinSpace (z :: zs) := by
  rw [joinSpace]
  intro h
  cases h

theorem closeCurrent_lstrip_first (parts : List Str) (x : Str) (xs : List Str) :
    closeCurrent parts (pyLstrip x :: xs) = closeCurrent parts (x :: xs) := by
  unfold closeCurrent
  rw [if_neg (by simp : ¬ (pyLstrip x :: xs = []))]
  rw [if_neg (by simp : ¬ (x :: xs = []))]
  congr 1
  cases xs with
  | nil =>
    show [pyStrip (pyLstrip x)] = [pyStrip x]
    unfold pyStrip
    rw [pyLstrip_idem]
  | cons z zs =>
    rw [joinSpace_cons_cons, joinSpace_cons_cons]
    rw [pyStrip_append_pyLstrip]

theorem buildPartsAux_cons_marker (line : Str) (rest parts current : List Str)
    (rem : Str) (hm : matchMarker line = some rem) :
    buildPartsAux (line :: rest) parts current
      = buildPartsAux rest (closeCurrent parts current) [pyStrip rem] := by
  rw [buildPartsAux, hm]

theorem buildPartsAux_cons_plain (line : Str) (rest parts current : List Str)
    (hm : matchMarker line = none) :
    buildPartsAux (line :: rest) parts current
      = buildPartsAux rest parts (current ++ [line]) := by
  rw [buildPartsAux, hm]

theorem buildPartsAux_lstrip_first (rest : List Str) :
    ∀ (parts : List Str) (x : Str) (xs : List Str),
      buildPartsAux rest parts (pyLstrip x :: xs)
        = buildPartsAux rest parts (x :: xs) := by
  induction rest with
  | nil => intro parts x xs; exact closeCurrent_lstrip_first parts x xs
  | cons line rs ih =>
    intro parts x xs
    cases hm : matchMarker line with
    | some rem =>
      rw [buildPartsAux_cons_marker line rs _ _ rem hm]
      rw [buildPartsAux_cons_marker line rs _ _ rem hm]
      rw [closeCurrent_lstrip_first]
    | none =>
      rw [buildPartsAux_cons_plain line rs _ _ hm]
      rw [buildPartsAux_cons_plain line rs _ _ hm]
      rw [List.cons_append]
      exact ih parts x (xs ++ [line])

theorem buildParts_lstripHead (ls : List Str) :
    buildParts (lstripHead ls) = buildParts ls := by
  cases ls with
  | nil => rfl
  | cons l rest =>
    show buildPartsAux (pyLstrip l :: rest) [] [] = buildPartsAux (l :: rest) [] []
    cases hm : matchMarker l with
    | some rem =>
      rw [buildPartsAux_cons_marker l rest [] [] rem hm]
      rw [buildPartsAux_cons_marker (pyLstrip l) rest [] [] rem
        (by rw [matchMarker_pyLstrip]; exact hm)]
    | none =>
      rw [buildPartsAux_cons_plain l rest [] [] hm]
      rw [buildPartsAux_cons_plain (pyLstrip l) rest [] []
        (by rw [matchMarker_pyLstrip]; exact hm)]
      show buildPartsAux rest [] [pyLstrip l] = buildPartsAux rest [] [l]
      exact buildPartsAux_lstrip_first rest [] l []

theorem buildParts_linesOf_pyStrip (q : Str) :
    buildParts (linesOf (pyStrip q)) = buildParts (linesOf q) := by
  rw [linesOf_pyStrip, buildParts_lstripHead]

/-! marker suffix lemmas -/

theorem dropOpt_suffix (p : Char → Bool) (l : Str) : dropOpt p l <:+ l := by
  cases l with
  | nil => exact List.suffix_rfl
  | cons c r =>
    have he : dropOpt p (c :: r) = if p c then r else c :: r := rfl
    by_cases hp : p c
    · rw [he, if_pos hp]
      exact List.suffix_cons c r
    · rw [he, if_neg hp]

theorem digitsThenPunct_suffix {x rem : Str} (h : digitsThenPunct x = some rem) :
    rem <:+ x := by
  cases htw : x.takeWhile Char.isDigit with
  | nil =>
    cases hdw : x.dropWhile Char.isDigit with
    | nil =>
      rw [show digitsThenPunct x = none by
        unfold digitsThenPunct takeDigits; rw [htw, hdw]] at h
      cases h
    | cons c r =>
      rw [show digitsThenPunct x = none by
        unfold digitsThenPunct takeDigits; rw [htw, hdw]] at h
      cases h
  | cons d ds =>
    cases hdw : x.dropWhile Char.isDigit with
    | nil =>
      rw [show digitsThenPunct x = none by
        unfold digitsThenPunct takeDigits; rw [htw, hdw]] at h
      cases h
    | cons c r =>
      rw [show digitsThenPunct x = if isMarkPunct c then some r else none by
        unfold digitsThenPunct takeDigits; rw [htw, hdw]] at h
      split at h
      · have hr := Option.some.inj h
        subst hr
        exact (List.suffix_cons _ _).trans (hdw ▸ List.dropWhile_suffix Char.isDigit)
      · cases h

theorem markerAlt1_suffix {l rem : Str} (h : markerAlt1 l = some rem) : rem <:+ l :=
  (digitsThenPunct_suffix h).trans
    ((dropOpt_suffix isWS _).trans (dropOpt_suffix _ l))

theorem markerAlt2_suffix {l rem : Str} (h : markerAlt2 l = some rem) : rem <:+ l := by
  unfold markerAlt2 at h
  split at h
  · rename_i p a r t rest
    split at h
    · refine (digitsThenPunct_suffix h).trans ?_
      refine (List.dropWhile_suffix isWS).trans ?_
      exact (((List.suffix_cons t rest).trans (List.suffix_cons r _)).trans
        (List.suffix_cons a _)).trans (List.suffix_cons p _)
    · cases h
  · cases h

theorem markerAlt3_suffix {l rem : Str} (h : markerAlt3 l = some rem) : rem <:+ l := by
  unfold markerAlt3 at h
  split at h
  · rename_i c r
    split at h
    · cases h
      exact ((List.suffix_cons ')' rem).trans (List.suffix_cons c _)).trans
        (List.suffix_cons '(' _)
    · cases h
  · cases h

theorem markerAlt4_suffix {l rem : Str} (h : markerAlt4 l = some rem) : rem <:+ l := by
  unfold markerAlt4 at h
  split at h
  · rename_i c r
    split at h
    · cases h
      exact (List.suffix_cons ')' rem).trans (List.suffix_cons c _)
    · cases h
  · cases h

theorem markerAlt5_suffix {l rem : Str} (h : markerAlt5 l = some rem) : rem <:+ l := by
  unfold markerAlt5 at h
  split at h
  · rename_i c r
    split at h
    · exact (digitsThenPunct_suffix h).trans (List.suffix_cons c r)
    · cases h
  · cases h

theorem matchMarker_suffix {l rem : Str} (h : matchMarker l = some rem) :
    ∀ c ∈ rem, c ∈ l := by
  unfold matchMarker markerAlts at h
  have hsub : rem <:+ pyLstrip l := by
    cases h1 : markerAlt1 (pyLstrip l) with
    | some r1 =>
      rw [h1] at h
      cases h
      exact markerAlt1_suffix h1
    | none =>
      rw [h1] at h
      simp only [Option.orElse] at h
      cases h2 : markerAlt2 (pyLstrip l) with
      | some r2 =>
        rw [h2] at h
        cases h
        exact markerAlt2_suffix h2
      | none =>
        rw [h2] at h
        simp only [Option.orElse] at h
        cases h3 : markerAlt3 (pyLstrip l) with
        | some r3 =>
          rw [h3] at h
          cases h
          exact markerAlt3_suffix h3
        | none =>
          rw [h3] at h
          simp only [Option.orElse] at h
          cases h4 : markerAlt4 (pyLstrip l) with
          | some r4 =>
            rw [h4] at h
            cases h
            exact markerAlt4_suffix h4
          | none =>
            rw [h4] at h
            simp only [Option.orElse] at h
            exact markerAlt5_suffix h
  intro c hc
  have h2 : c ∈ pyLstrip l := hsub.subset hc
  have h3 : c ∈ l.takeWhile isWS ++ l.dropWhile isWS := by
    exact List.mem_append.mpr (Or.inr h2)
  rw [List.takeWhile_append_dropWhile] at h3
  exact h3

/-! properties of the produced parts -/

theorem mem_pyLstrip_sub {c : Char} {s : Str} (h : c ∈ pyLstrip s) : c ∈ s := by
  have h2 : c ∈ s.takeWhile isWS ++ s.dropWhile isWS := List.mem_append.mpr (Or.inr h)
  rw [List.takeWhile_append_dropWhile] at h2
  exact h2

theorem mem_pyRstrip_sub {c : Char} {s : Str} (h : c ∈ pyRstrip s) : c ∈ s := by
  obtain ⟨w, hw, _⟩ := pyRstrip_decomp s
  rw [hw]
  exact List.mem_append.mpr (Or.inl h)

theorem mem_pyStrip_sub {c : Char} {s : Str} (h : c ∈ pyStrip s) : c ∈ s :=
  mem_pyLstrip_sub (mem_pyRstrip_sub h)

theorem mem_joinSpace {c : Char} : ∀ {cur : List Str}, c ∈ joinSpace cur →
    c = ' ' ∨ ∃ x ∈ cur, c ∈ x := by
  intro cur
  induction cur with
  | nil => intro h; cases h
  | cons x rest ih =>
    intro h
    cases rest with
    | nil =>
      exact Or.inr ⟨x, List.mem_cons_self _ _, h⟩
    | cons y r2 =>
      rw [joinSpace_cons_cons] at h
      rcases List.mem_append.mp h with hm | hm
      · exact Or.inr ⟨x, List.mem_cons_self _ _, hm⟩
      · rcases List.mem_cons.mp hm with rfl | hm2
        · exact Or.inl rfl
        · rcases ih hm2 with hsp | ⟨z, hz, hcz⟩
          · exact Or.inl hsp
          · exact Or.inr ⟨z, List.mem_cons_of_mem _ hz, hcz⟩

theorem closeCurrent_no_nl {parts cur : List Str}
    (hp : ∀ p ∈ parts, '\n' ∉ p) (hc : ∀ x ∈ cur, '\n' ∉ x) :
    ∀ p ∈ closeCurrent parts cur, '\n' ∉ p := by
  intro p hmem
  unfold closeCurrent at hmem
  split at hmem
  · exact hp p hmem
  · rcases List.mem_append.mp hmem with hm | hm
    · exact hp p hm
    · rcases List.mem_cons.mp hm with rfl | hm2
      · intro hnl
        rcases mem_joinSpace (mem_pyStrip_sub hnl) with hsp | ⟨x, hx, hcx⟩
        · cases hsp
        · exact hc x hx hcx
      · cases hm2

theorem closeCurrent_stripped {parts cur : List Str}
    (hp : ∀ p ∈ parts, pyStrip p = p) :
    ∀ p ∈ closeCurrent parts cur, pyStrip p = p := by
  intro p hmem
  unfold closeCurrent at hmem
  split at hmem
  · exact hp p hmem
  · rcases List.mem_append.mp hmem with hm | hm
    · exact hp p hm
    · rcases List.mem_cons.mp hm with rfl | hm2
      · exact pyStrip_idem _
      · cases hm2

theorem buildPartsAux_no_nl (lines : List Str) :
    ∀ (parts cur : List Str),
      (∀ l ∈ lines, '\n' ∉ l) →
      (∀ p ∈ parts, '\n' ∉ p) →
      (∀ x ∈ cur, '\n' ∉ x) →
      ∀ p ∈ buildPartsAux lines parts cur, '\n' ∉ p := by
  induction lines with
  | nil =>
    intro parts cur _ hp hc
    exact closeCurrent_no_nl hp hc
  | cons line rest ih =>
    intro parts cur hl hp hc
    cases hm : matchMarker line with
    | some rem =>
      rw [buildPartsAux_cons_marker line rest parts cur rem hm]
      apply ih
      · exact fun l hml => hl l (List.mem_cons_of_mem _ hml)
      · exact closeCurrent_no_nl hp hc
      · intro x hx
        rcases List.mem_cons.mp hx with rfl | hx2
        · intro hnl
          exact hl line (List.mem_cons_self _ _)
            (matchMarker_suffix hm '\n' (mem_pyStrip_sub hnl))
        · cases hx2
    | none =>
      rw [buildPartsAux_cons_plain line rest parts cur hm]
      apply ih
      · exact fun l hml => hl l (List.mem_cons_of_mem _ hml)
      · exact hp
      · intro x hx
        rcases List.mem_append.mp hx with hm2 | hm2
        · exact hc x hm2
        · rcases List.mem_cons.mp hm2 with rfl | hm3
          · exact hl x (List.mem_cons_self _ _)
          · cases hm3

theorem buildPartsAux_stripped (lines : List Str) :
    ∀ (parts cur : List Str),
      (∀ p ∈ parts, pyStrip p = p) →
      ∀ p ∈ buildPartsAux lines parts cur, pyStrip p = p := by
  induction lines with
  | nil =>
    intro parts cur hp
    exact closeCurrent_stripped hp
  | cons line rest ih =>
    intro parts cur hp
    cases hm : matchMarker line with
    | some rem =>
      rw [buildPartsAux_cons_marker line rest parts cur rem hm]
      exact ih _ _ (closeCurrent_stripped hp)
    | none =>
      rw [buildPartsAux_cons_plain line rest parts cur hm]
      exact ih _ _ hp

theorem linesOf_no_nl (q : Str) : ∀ l ∈ linesOf q, '\n' ∉ l := by
  intro l hl
  unfold linesOf at hl
  obtain ⟨seg, hseg, hk⟩ := List.mem_filterMap.mp hl
  unfold keepLine at hk
  split at hk
  · cases hk
  · cases hk
    intro hnl
    exact splitNl_no_newline q seg hseg (mem_pyRstrip_sub hnl)

/-! single-part facts and the idempotence theorem pieces -/

theorem splitNl_no_nl_single (p : Str) (h : '\n' ∉ p) : splitNl p = [p] := by
  induction p with
  | nil => rfl
  | cons c r ih =>
    have hc : ¬ c = '\n' := fun hx => h (hx ▸ List.mem_cons_self _ _)
    rw [splitNl_cons_other c r hc, ih (fun hx => h (List.mem_cons_of_mem _ hx))]

theorem linesOf_single (p : Str) (hnl : '\n' ∉ p) (hs : pyStrip p = p)
    (hne : p ≠ []) : linesOf p = [p] := by
  unfold linesOf
  rw [splitNl_no_nl_single p hnl, List.filterMap_cons]
  have hb : pyStrip p ≠ [] := by rw [hs]; exact hne
  rw [keepLine_of_not_blank hb]
  have : pyRstrip p = p := by
    conv_lhs => rw [← hs]
    rw [pyStrip_rstripped, hs]
  rw [this]
  rfl

theorem buildParts_singleton_len (l : Str) : (buildParts [l]).length ≤ 1 := by
  unfold buildParts
  cases hm : matchMarker l with
  | some rem =>
    rw [buildPartsAux_cons_marker l [] [] [] rem hm]
    simp [buildPartsAux, closeCurrent]
  | none =>
    rw [buildPartsAux_cons_plain l [] [] [] hm]
    simp [buildPartsAux, closeCurrent]

theorem splitQ_blank (q : Str) (h : pyStrip q = []) :
    split_question_into_parts q = [q] := by
  unfold split_question_into_parts
  rw [if_pos h]

theorem splitQ_short (q : Str) (h : pyStrip q ≠ [])
    (hlen : (buildParts (linesOf q)).length ≤ 1) :
    split_question_into_parts q = [pyStrip q] := by
  unfold split_question_into_parts
  rw [if_neg h]
  dsimp only
  rw [if_pos hlen]

theorem splitQ_filtered_empty (q : Str) (h : pyStrip q ≠ [])
    (hlen : ¬ (buildParts (linesOf q)).length ≤ 1)
    (hf : (buildParts (linesOf q)).filter (fun p => !p.isEmpty) = []) :
    split_question_into_parts q = [pyStrip q] := by
  unfold split_question_into_parts
  rw [if_neg h]
  dsimp only
  rw [if_neg hlen, if_pos hf]

theorem splitQ_filtered (q : Str) (h : pyStrip q ≠ [])
    (hlen : ¬ (buildParts (linesOf q)).length ≤ 1)
    (hf : (buildParts (linesOf q)).filter (fun p => !p.isEmpty) ≠ []) :
    split_question_into_parts q
      = (buildParts (linesOf q)).filter (fun p => !p.isEmpty) := by
  unfold split_question_into_parts
  rw [if_neg h]
  dsimp only
  rw [if_neg hlen, if_neg hf]

theorem splitQ_of_strip_eq (q : Str) (h : pyStrip q ≠ [])
    (hsingle : split_question_into_parts q = [pyStrip q]) :
    split_question_into_parts (pyStrip q) = [pyStrip q] := by
  have hstrip2 : pyStrip (pyStrip q) = pyStrip q := pyStrip_idem q
  have hparts : buildParts (linesOf (pyStrip q)) = buildParts (linesOf q) :=
    buildParts_linesOf_pyStrip q
  by_cases hlen : (buildParts (linesOf q)).length ≤ 1
  · rw [splitQ_short (pyStrip q) (by rw [hstrip2]; exact h) (by rw [hparts]; exact hlen)]
    rw [hstrip2]
  · by_cases hf : (buildParts (linesOf q)).filter (fun p => !p.isEmpty) = []
    · rw [splitQ_filtered_empty (pyStrip q) (by rw [hstrip2]; exact h)
        (by rw [hparts]; exact hlen) (by rw [hparts]; exact hf)]
      rw [hstrip2]
    · rw [splitQ_filtered q h hlen hf] at hsingle
      -- the filtered list is [pyStrip q]; but pyStrip q ∈ it means it is a part;
      -- we still answer via the filtered branch for pyStrip q
      rw [splitQ_filtered (pyStrip q) (by rw [hstrip2]; exact h)
        (by rw [hparts]; exact hlen) (by rw [hparts]; exact hf)]
      rw [hparts]
      exact hsingle

theorem splitQ_of_single_part (p : Str) (hnl : '\n' ∉ p) (hs : pyStrip p = p)
    (hne : p ≠ []) : split_question_into_parts p = [p] := by
  have h1 : pyStrip p ≠ [] := by rw [hs]; exact hne
  have h2 : (buildParts (linesOf p)).length ≤ 1 := by
    rw [linesOf_single p hnl hs hne]
    exact buildParts_singleton_len p
  rw [splitQ_short p h1 h2, hs]

theorem splitQ_idempotent_single (q p : Str)
    (h : split_question_into_parts q = [p]) :
    split_question_into_parts p = [p] := by
  by_cases hb : pyStrip q = []
  · rw [splitQ_blank q hb] at h
    cases h
    rw [splitQ_blank q hb]
  · by_cases hlen : (buildParts (linesOf q)).length ≤ 1
    · have h2 := splitQ_short q hb hlen
      rw [h2] at h
      cases h
      exact splitQ_of_strip_eq q hb h2
    · by_cases hf : (buildParts (linesOf q)).filter (fun x => !x.isEmpty) = []
      · have h2 := splitQ_filtered_empty q hb hlen hf
        rw [h2] at h
        cases h
        exact splitQ_of_strip_eq q hb h2
      · rw [splitQ_filtered q hb hlen hf] at h
        have hp : p ∈ (buildParts (linesOf q)).filter (fun x => !x.isEmpty) := by
          rw [h]
          exact List.mem_cons_self _ _
        have hp2 := List.mem_filter.mp hp
        have hne : p ≠ [] := by
          intro hx
          rw [hx] at hp2
          simp at hp2
        have hstr : pyStrip p = p :=
          buildPartsAux_stripped (linesOf q) [] [] (by intro x hx; cases hx) p hp2.1
        have hnl : '\n' ∉ p :=
          buildPartsAux_no_nl (linesOf q) [] [] (linesOf_no_nl q)
            (by intro x hx; cases hx) (by intro x hx; cases hx) p hp2.1
        exact splitQ_of_single_part p hnl hstr hne

theorem splitQ_props (q : Str) (h : pyStrip q ≠ []) :
    split_question_into_parts q ≠ []
    ∧ ∀ p ∈ split_question_into_parts q, p ≠ [] ∧ pyStrip p = p := by
  by_cases hlen : (buildParts (linesOf q)).length ≤ 1
  · rw [splitQ_short q h hlen]
    refine ⟨by simp, ?_⟩
    intro p hp
    rcases List.mem_cons.mp hp with rfl | hm
    · exact ⟨h, pyStrip_idem q⟩
    · cases hm
  · by_cases hf : (buildParts (linesOf q)).filter (fun x => !x.isEmpty) = []
    · rw [splitQ_filtered_empty q h hlen hf]
      refine ⟨by simp, ?_⟩
      intro p hp
      rcases List.mem_cons.mp hp with rfl | hm
      · exact ⟨h, pyStrip_idem q⟩
      · cases hm
    · rw [splitQ_filtered q h hlen hf]
      refine ⟨hf, ?_⟩
      intro p hp
      have hp2 := List.mem_filter.mp hp
      refine ⟨?_, buildPartsAux_stripped (linesOf q) [] []
        (by intro x hx; cases hx) p hp2.1⟩
      intro hx
      rw [hx] at hp2
      simp at hp2

theorem stripFilter_mem (l : List Str) :
    ∀ p ∈ stripFilter l, p ≠ [] ∧ pyStrip p = p := by
  intro p hp
  obtain ⟨a, _, hk⟩ := List.mem_filterMap.mp hp
  split at hk
  · cases hk
  · cases hk
    rename_i hne
    exact ⟨hne, pyStrip_idem a⟩

theorem splitSub_cases (qq c : Str) (h : pyStrip c ≠ []) :
    split_submission_into_parts qq c = [pyStrip c]
    ∨ ∃ l, split_submission_into_parts qq c = stripFilter l
        ∧ 1 < (stripFilter l).length := by
  unfold split_submission_into_parts
  rw [if_neg h]
  dsimp only
  by_cases h1 : 1 < (stripFilter (splitRunSep '-' c)).length
  · rw [if_pos h1]
    exact Or.inr ⟨_, rfl, h1⟩
  · rw [if_neg h1]
    by_cases h2 : 1 < (stripFilter (splitRunSep '#' c)).length
    · rw [if_pos h2]
      exact Or.inr ⟨_, rfl, h2⟩
    · rw [if_neg h2]
      by_cases h3 : 1 < (stripFilter (splitRunSep '=' c)).length
      · rw [if_pos h3]
        exact Or.inr ⟨_, rfl, h3⟩
      · rw [if_neg h3]
        by_cases h4 : 1 < (stripFilter (ciLitSplit "--- Page Break ---".data c)).length
        · rw [if_pos h4]
          exact Or.inr ⟨_, rfl, h4⟩
        · rw [if_neg h4]
          by_cases h5 : 1 < (stripFilter (ciLitSplit "FILE_BREAK".data c)).length
          · rw [if_pos h5]
            exact Or.inr ⟨_, rfl, h5⟩
          · rw [if_neg h5]
            by_cases h6 : 1 < (stripFilter (ciLitSplit "--- FILE BREAK ---".data c)).length
            · rw [if_pos h6]
              exact Or.inr ⟨_, rfl, h6⟩
            · rw [if_neg h6]
              by_cases h7 : 1 < (stripFilter (splitParaSep c)).length
              · rw [if_pos h7]
                exact Or.inr ⟨_, rfl, h7⟩
              · rw [if_neg h7]
                rw [if_neg (by
                  simp only [Bool.and_eq_true, decide_eq_true_eq]
                  exact fun hx => h7 hx.2)]
                rw [if_neg (by
                  simp only [Bool.and_eq_true, decide_eq_true_eq]
                  exact fun hx => h7 hx.2)]
                exact Or.inl rfl

theorem splitSub_props (qq c : Str) (h : pyStrip c ≠ []) :
    split_submission_into_parts qq c ≠ []
    ∧ ∀ p ∈ split_submission_into_parts qq c, p ≠ [] ∧ pyStrip p = p := by
  rcases splitSub_cases qq c h with heq | ⟨l, heq, hlen⟩
  · rw [heq]
    refine ⟨by simp, ?_⟩
    intro p hp
    rcases List.mem_cons.mp hp with rfl | hm
    · exact ⟨h, pyStrip_idem c⟩
    · cases hm
  · rw [heq]
    refine ⟨?_, stripFilter_mem l⟩
    intro hx
    rw [hx] at hlen
    simp at hlen

/-- C8 counterexample: the submission splitter is not idempotent on its own
single-part output.  On `"\n---\n---\nx"` (non-blank content) no separator
fires — the run-separator scan consumes the first `\n---\n` and the tail
`---\nx` has no further match, leaving one non-blank piece, which is not
more than one part — so the splitter falls through to the single part
`"---\n---\nx"` (the trimmed whole input); re-splitting that very part now
finds an *internal* `\n---\n` separator and yields two parts. -/
theorem c8_counterexample :
    pyStrip "\n---\n---\nx".data ≠ []
    ∧ split_submission_into_parts "q".data "\n---\n---\nx".data
        = ["---\n---\nx".data]
    ∧ split_submission_into_parts "q".data "---\n---\nx".data
        = ["---".data, "x".data]
    ∧ split_submission_into_parts "q".data "---\n---\nx".data
        ≠ ["---\n---\nx".data] := by
  refine ⟨by decide, by decide, by decide, by decide⟩

/-- C8 (amended): for any input with non-blank content, both splitters
(`split_question_into_parts` on the question text, `split_submission_into_parts`
on the submission text) return a non-empty sequence of non-empty parts each of
which is its own strip (trimmed), and the *question* splitter is idempotent on
its own single-part output.  The submission splitter is NOT idempotent on its
single-part fallback (see the counterexample): trimming the whole input can
expose a leading separator that a re-split then honours. -/
theorem c8_amended_splitters (q qq c : Str)
    (hq : pyStrip q ≠ []) (hc : pyStrip c ≠ []) :
    (split_question_into_parts q ≠ []
      ∧ ∀ r ∈ split_question_into_parts q, r ≠ [] ∧ pyStrip r = r)
    ∧ (split_submission_into_parts qq c ≠ []
      ∧ ∀ r ∈ split_submission_into_parts qq c, r ≠ [] ∧ pyStrip r = r)
    ∧ ∀ p, split_question_into_parts q = [p] →
        split_question_into_parts p = [p] :=
  ⟨splitQ_props q hq, splitSub_props qq c hc,
   fun p hp => splitQ_idempotent_single q p hp⟩

/-- C8 witness: the amended theorem instantiated at the concrete
multi-part question `"P1: a\nP2: b"` and submission `"b"`. -/
theorem c8_witness :
    pyStrip "P1: a\nP2: b".data ≠ [] ∧ pyStrip "b".data ≠ []
    ∧ ((split_question_into_parts "P1: a\nP2: b".data ≠ []
        ∧ ∀ r ∈ split_question_into_parts "P1: a\nP2: b".data,
            r ≠ [] ∧ pyStrip r = r)
      ∧ (split_submission_into_parts "q".data "b".data ≠ []
        ∧ ∀ r ∈ split_submission_into_parts "q".data "b".data,
            r ≠ [] ∧ pyStrip r = r)
      ∧ ∀ p, split_question_into_parts "P1: a\nP2: b".data = [p] →
          split_question_into_parts p = [p]) :=
  ⟨by decide, by decide,
   c8_amended_splitters "P1: a\nP2: b".data "q".data "b".data
     (by decide) (by decide)⟩
